import Mathlib

/-!
Verification of the availability-aware ride-matching engine
(`interval_node.py`, `interval_tree.py`, `driver.py`, `ride.py`, `main.py`).

The development shallowly embeds the Python source:

* the augmented interval tree (`IntervalTree` / `IntervalNode`) becomes the
  inductive type `ITree α` over an arbitrary linear order `α` (the Python code
  stores `datetime` values and only ever compares them and takes maxima);
* the location graph, Dijkstra estimator and matching orchestrator become
  functions over an arbitrary `LinearOrderedAddCommGroup` of time values
  (the Python code uses floats/datetimes and only adds, subtracts and
  compares them); locations are modelled by `Int` (the Python coordinate
  tuples are used only for equality tests and as heap tie-breakers, for
  which any linearly ordered type with decidable equality is faithful);
* Python dictionaries become association lists with insertion-order append
  semantics, and the `heapq` priority queue becomes "pop the lexicographically
  least element of the pending list", which is exactly what `heapq.heappop`
  returns for `(distance, node)` tuples;
* nonterminating or crashing executions (the `while queue` loop, `KeyError`,
  and the `TypeError` raised by `timedelta(minutes=None)`) are modelled by
  fuel plus `Option`: `none` means the Python run did not return normally.
-/

namespace RidesDrivers

/-- One node of the interval tree: interval `[low, high]`, the augmented
subtree maximum `mx`, and the two children (`interval_node.py`). `leaf`
stands for Python's `None` child. -/
inductive ITree (α : Type) where
  | leaf : ITree α
  | node (left : ITree α) (low high mx : α) (right : ITree α) : ITree α
deriving DecidableEq

variable {α : Type} [LinearOrder α]

namespace ITree

/-- The list of intervals stored in a tree, root first, then the left and
right subtrees (the same visit order `_search_overlap` uses). -/
def elems : ITree α → List (α × α)
  | leaf => []
  | node l lo hi _ r => (lo, hi) :: (elems l ++ elems r)

/-- The stored `max` field of a nonempty tree, or the default `d` for a
leaf (used to transcribe Python's accesses to `child.max`). -/
def mxOf (d : α) : ITree α → α
  | leaf => d
  | node _ _ _ m _ => m

/-- Transcription of `IntervalTree._insert` (and of the `insert_interval`
wrapper, whose `None`-root branch coincides with the `leaf` case):
standard BST insertion keyed by `low`, ties to the right, updating
`max` along the path. -/
def insert_interval : ITree α → α → α → ITree α
  | leaf, lo, hi => node leaf lo hi hi leaf
  | node l a b m r, lo, hi =>
    if lo < a then node (insert_interval l lo hi) a b (max m hi) r
    else node l a b (max m hi) (insert_interval r lo hi)

/-- Transcription of the bottom-up `max` refresh at the end of
`IntervalTree._delete_interval` (the four-way `if/elif/else` on the
children being `None`). -/
def withMax (l : ITree α) (a b : α) (r : ITree α) : ITree α :=
  match l, r with
  | leaf, leaf => node leaf a b b leaf
  | leaf, node rl rlo rhi rm rr => node leaf a b (max b rm) (node rl rlo rhi rm rr)
  | node ll llo lhi lm lr, leaf => node (node ll llo lhi lm lr) a b (max b lm) leaf
  | node ll llo lhi lm lr, node rl rlo rhi rm rr =>
    node (node ll llo lhi lm lr) a b (max b (max lm rm)) (node rl rlo rhi rm rr)

/-- Transcription of `IntervalTree._find_min`: follow `left` children from
the node `(a, b)` down the left spine. -/
def findMinFrom (a b : α) : ITree α → α × α
  | leaf => (a, b)
  | node l lo hi _ _ => findMinFrom lo hi l

/-- Transcription of `IntervalTree._delete_interval`: BST deletion by the
exact `(low, high)` key, navigating on `low`; the two-child case copies the
in-order successor into the node and deletes it from the right subtree;
`max` is refreshed bottom-up except on the two early-return branches
(which return an unchanged subtree). A node with the right `low` but a
different `high` silently ends the search, as in the source. -/
def delete : ITree α → α → α → ITree α
  | leaf, _, _ => leaf
  | node l a b _ r, lo, hi =>
    if lo < a then withMax (delete l lo hi) a b r
    else if a < lo then withMax l a b (delete r lo hi)
    else if b = hi then
      match l, r with
      | leaf, _ => r
      | node ll llo lhi lm lr, leaf => node ll llo lhi lm lr
      | node ll llo lhi lm lr, node rl rlo rhi rm rr =>
        let t := findMinFrom rlo rhi rl
        withMax (node ll llo lhi lm lr) t.1 t.2
          (delete (node rl rlo rhi rm rr) t.1 t.2)
    else withMax l a b r

/-- Transcription of `IntervalTree._do_overlap` on interval pairs:
`interval1.low <= interval2.high and interval2.low <= interval1.high`
(closed-interval overlap). -/
def overlapB (p q : α × α) : Bool :=
  decide (p.1 ≤ q.2) && decide (q.1 ≤ p.2)

/-- Transcription of `IntervalTree._search_overlap` (and of the
`_find_overlaps` wrapper): collect the root if it overlaps `[lo, hi]`,
descend left only when `left.max >= low`, always descend right. -/
def searchOverlap : ITree α → α → α → List (α × α)
  | leaf, _, _ => []
  | node l a b _ r, lo, hi =>
    (if overlapB (a, b) (lo, hi) then [(a, b)] else []) ++
      ((match l with
        | leaf => []
        | node ll llo lhi lm lr =>
          if lo ≤ lm then searchOverlap (node ll llo lhi lm lr) lo hi else []) ++
        searchOverlap r lo hi)

/-- One iteration of the `modify_intervals` loop body: delete the
overlapping interval `p`, then reinsert `[p.low, lo]` when `p.low < lo`
and `[hi, p.high]` when `hi < p.high`. -/
def reserveStep (lo hi : α) (t : ITree α) (p : α × α) : ITree α :=
  let t1 := delete t p.1 p.2
  let t2 := if p.1 < lo then insert_interval t1 p.1 lo else t1
  if hi < p.2 then insert_interval t2 hi p.2 else t2

/-- Transcription of `IntervalTree.modify_intervals`: find every stored
interval overlapping `[lo, hi]`, then delete each and reinsert its
non-overlapping remainders. -/
def modify_intervals (t : ITree α) (lo hi : α) : ITree α :=
  (searchOverlap t lo hi).foldl (reserveStep lo hi) t

/-- Transcription of `IntervalTree._is_available` (and the `is_available`
wrapper): containment query with the same left-pruning as the search. -/
def is_available : ITree α → α → α → Bool
  | leaf, _, _ => false
  | node l a b _ r, lo, hi =>
    if a ≤ lo ∧ hi ≤ b then true
    else
      (match l with
        | leaf => false
        | node ll llo lhi lm lr =>
          if lo ≤ lm then is_available (node ll llo lhi lm lr) lo hi else false) ||
        is_available r lo hi

/-- An operation performed on a driver's availability tree during a run:
an initial `insert_interval` or a reservation via `modify_intervals`. -/
inductive Op (α : Type) where
  | ins (lo hi : α) : Op α
  | res (lo hi : α) : Op α
deriving DecidableEq

/-- Apply one operation to a tree. -/
def applyOp (t : ITree α) : Op α → ITree α
  | .ins lo hi => insert_interval t lo hi
  | .res lo hi => modify_intervals t lo hi

/-- The tree state reached from the empty tree by a sequence of
`insert_interval` / `modify_intervals` calls. -/
def run (ops : List (Op α)) : ITree α :=
  ops.foldl applyOp leaf

/-- Half-open disjointness of two intervals: `[p.1, p.2)` and `[q.1, q.2)`
share no point (the spec declares stored intervals to be half-open). -/
def disjB (p q : α × α) : Bool :=
  decide (p.2 ≤ q.1) || decide (q.2 ≤ p.1)

/-- Pairwise half-open disjointness of a list of intervals. -/
def pwDisj : List (α × α) → Bool
  | [] => true
  | p :: ps => ps.all (disjB p) && pwDisj ps

/-- The validity discipline under which the spec's invariants are claimed:
every inserted interval is well-formed (`low < high`) and disjoint from
everything currently stored, and every reservation window is ordered. -/
def okOp (t : ITree α) : Op α → Bool
  | .ins lo hi => decide (lo < hi) && (elems t).all (disjB (lo, hi))
  | .res lo hi => decide (lo ≤ hi)

/-- A whole operation sequence is valid from the state `t`. -/
def okOps : ITree α → List (Op α) → Bool
  | _, [] => true
  | t, op :: ops => okOp t op && okOps (applyOp t op) ops

/-- Half-open disjointness as a proposition. -/
def Disj (p q : α × α) : Prop := p.2 ≤ q.1 ∨ q.2 ≤ p.1

instance (p q : α × α) : Decidable (Disj p q) :=
  instDecidableOr

/-- BST ordering on `low` keys: strictly smaller keys to the left, equal or
larger keys to the right (insertion sends ties right). -/
def Bst : ITree α → Prop
  | leaf => True
  | node l a _ _ r =>
    (∀ p ∈ elems l, p.1 < a) ∧ (∀ p ∈ elems r, a ≤ p.1) ∧ Bst l ∧ Bst r

/-- The augmented-`max` soundness the pruning relies on: every node's `mx`
field bounds every `high` value in its subtree. -/
def MaxOk : ITree α → Prop
  | leaf => True
  | node l _ b m r =>
    b ≤ m ∧ (∀ p ∈ elems l, p.2 ≤ m) ∧ (∀ p ∈ elems r, p.2 ≤ m) ∧ MaxOk l ∧ MaxOk r

/-- The remainder intervals that one `modify_intervals(lo, hi)` call
reinserts for the given list of overlapping intervals, in loop order. -/
def pieces (lo hi : α) : List (α × α) → List (α × α)
  | [] => []
  | p :: ps =>
    (if p.1 < lo then [(p.1, lo)] else []) ++
      ((if hi < p.2 then [(hi, p.2)] else []) ++ pieces lo hi ps)

/-- The state invariant of a driver's availability tree: BST order, sound
`max` augmentation, pairwise half-open disjoint stored intervals, and
every stored interval nonempty. -/
def Inv (t : ITree α) : Prop :=
  Bst t ∧ MaxOk t ∧ List.Pairwise Disj (elems t) ∧ ∀ p ∈ elems t, p.1 < p.2

end ITree

section Matching

/-! The location graph, the Dijkstra estimator and the matching
orchestrator (`main.py`, `ride.py`, `driver.py`). Times, durations and
travel times live in an arbitrary linearly ordered additive commutative
group `β` (Python mixes `datetime`, `timedelta` and `float` minutes, all
embedded in one linear timeline: the only operations used are `+`, `-`
and comparisons). Locations are modelled by `Int`: Python's coordinate
pairs are used only for equality tests (dictionary keys) and as the
lexicographic tie-breaker of `(distance, node)` tuples inside `heapq`,
for which any linearly ordered type with decidable equality is faithful.
`haversine(x, y) / MILES_PER_MINUTE` is an external numeric collaborator
and enters as the edge-weight parameter `est`. -/

variable {β : Type} [LinearOrderedAddCommGroup β]

/-- A Python dict used as an adjacency map: association list in key
insertion order; keys are unique by construction. -/
abbrev Graph (β : Type) := List (Int × List (Int × β))

/-- Python dict read `m[k]`, `none` standing for a `KeyError`. -/
def lookupA {γ : Type} : List (Int × γ) → Int → Option γ
  | [], _ => none
  | (k, v) :: rest, key => if k = key then some v else lookupA rest key

/-- Python dict write `m[k] = v`: overwrite in place, or append a new key
at the end (insertion order). -/
def updateA {γ : Type} : List (Int × γ) → Int → γ → List (Int × γ)
  | [], key, v => [(key, v)]
  | (k, w) :: rest, key, v =>
    if k = key then (k, v) :: rest else (k, w) :: updateA rest key v

/-- Strict lexicographic order on `(distance, node)` tuples — the order
`heapq` uses on the Python tuples. -/
def lexLt (x y : β × Int) : Bool :=
  decide (x.1 < y.1) || (decide (x.1 = y.1) && decide (x.2 < y.2))

/-- The least element of `y :: ys` in the `lexLt` order. -/
def minOf (x : β × Int) : List (β × Int) → β × Int
  | [] => x
  | y :: ys => if lexLt y x then minOf y ys else minOf x ys

/-- Remove the first occurrence of `x` from the list. -/
def removeFirst : List (β × Int) → (β × Int) → List (β × Int)
  | [], _ => []
  | y :: ys, x => if y = x then ys else y :: removeFirst ys x

/-- Transcription of `heapq.heappop`: pop one least `(distance, node)`
tuple from the pending entries. -/
def popMin : List (β × Int) → Option ((β × Int) × List (β × Int))
  | [] => none
  | y :: ys => some (minOf y ys, removeFirst (y :: ys) (minOf y ys))

/-- Python `x < d` where `d` is a distance-table entry: `none` plays
`float('inf')`, so the comparison is true against `none`. -/
def ltD (x : β) : Option β → Bool
  | none => true
  | some q => decide (x < q)

/-- Python `d < x` where `d` is a distance-table entry (`none` = infinity,
never below a finite value). -/
def dLt : Option β → β → Bool
  | none, _ => false
  | some q, x => decide (q < x)

/-- The initial distance table of `Ride._dijkstra`:
`{node: inf for node in graph}` then `distances[start] = 0`. -/
def initDist (g : Graph β) (s : Int) : List (Int × Option β) :=
  updateA (g.map (fun p => (p.1, (none : Option β)))) s (some 0)

/-- The neighbor-relaxation `for` loop of `Ride._dijkstra`: update the
distance table and push improved entries; `none` is a `KeyError` on
`distances[neighbor]`. -/
def relaxAll (d : β) :
    List (Int × β) → List (Int × Option β) → List (β × Int) →
      Option (List (Int × Option β) × List (β × Int))
  | [], dist, queue => some (dist, queue)
  | (nb, w) :: rest, dist, queue =>
    match lookupA dist nb with
    | none => none
    | some dn =>
      if ltD (d + w) dn then
        relaxAll d rest (updateA dist nb (some (d + w))) (queue ++ [(d + w, nb)])
      else relaxAll d rest dist queue

/-- The `while queue` loop of `Ride._dijkstra`, fuel-indexed. The outer
`none` is an abnormal run (fuel exhausted or a Python `KeyError`); a
normal return yields `some r` with `r = none` exactly when the source
returns `None` (target unreachable). The loop pops the least tuple,
skips visited nodes, early-returns on the target, marks visited, skips
stale entries, and relaxes the popped node's neighbors. -/
def dloop (g : Graph β) (e : Int) :
    Nat → List (β × Int) → List (Int × Option β) → List Int → Option (Option β)
  | 0, _, _, _ => none
  | Nat.succ fuel, queue, dist, vis =>
    match popMin queue with
    | none =>
      match lookupA dist e with
      | none => none
      | some de => some de
    | some ((d, n), queue') =>
      if n ∈ vis then dloop g e fuel queue' dist vis
      else if n = e then some (some d)
      else
        match lookupA dist n with
        | none => none
        | some dn =>
          if dLt dn d then dloop g e fuel queue' dist (n :: vis)
          else
            match lookupA g n with
            | none => none
            | some nbrs =>
              match relaxAll d nbrs dist queue' with
              | none => none
              | some (dist', q') => dloop g e fuel q' dist' (n :: vis)

/-- Transcription of `Ride._dijkstra(graph, start, end)`. -/
def dijkstra (fuel : Nat) (g : Graph β) (s e : Int) : Option (Option β) :=
  dloop g e fuel [(0, s)] (initDist g s) []

/-- Transcription of the `Ride` record (`ride.py`); the two address
fields are inert payload, modelled by integers. -/
structure Ride (β : Type) where
  pickup_time : β
  pickup_location : Int
  pickup_address : Int
  dropoff_location : Int
  dropoff_address : Int
  estimated_ride_duration : β
deriving DecidableEq

/-- Transcription of the `Driver` record (`driver.py`): id, rate, current
location, declared availability windows, and the owned interval tree. -/
structure Driver (β : Type) where
  driver_id : Int
  hourly_rate : β
  location : Int
  availability : List (β × β)
  tree : ITree β
deriving DecidableEq

/-- Transcription of `Driver.__init__`: seed the interval tree by
inserting every declared availability window. -/
def mkDriver (i : Int) (rate : β) (loc : Int) (avail : List (β × β)) : Driver β :=
  ⟨i, rate, loc, avail, avail.foldl (fun t p => ITree.insert_interval t p.1 p.2) ITree.leaf⟩

/-- Transcription of `Driver.has_available_intervals`. -/
def Driver.has_available_intervals (d : Driver β) (s e : β) : Bool :=
  ITree.is_available d.tree s e

/-- Transcription of `Driver.reserve_interval`. -/
def Driver.reserve_interval (d : Driver β) (s e : β) : Driver β :=
  { d with tree := ITree.modify_intervals d.tree s e }

/-- The `for driver in drivers` loop of `Ride.find_best_driver`,
carrying the index of the current best driver together with the
`min_distance` and `hourly_rate` loop variables. Outer `none` models a
crashed iteration: when `_dijkstra` returns `None` for a driver the
source immediately evaluates `timedelta(minutes=None)` and raises a
`TypeError`, so the whole call aborts. An eligible driver replaces the
best on strictly smaller travel time, or on equal travel time and
strictly smaller hourly rate. -/
def fbdGo (fuel : Nat) (g : Graph β) (pt : β) (ploc : Int) (dur : β) :
    List (Driver β) → Nat → Option (Nat × β × β) → Option (Option Nat)
  | [], _, best => some (best.map (fun x => x.1))
  | d :: rest, i, best =>
    match dijkstra fuel g d.location ploc with
    | none => none
    | some none => none
    | some (some dtp) =>
      if d.has_available_intervals (pt - dtp) (pt + dur) = false then
        fbdGo fuel g pt ploc dur rest (i + 1) best
      else
        match best with
        | none => fbdGo fuel g pt ploc dur rest (i + 1) (some (i, dtp, d.hourly_rate))
        | some (bi, bd, br) =>
          if dtp < bd then
            fbdGo fuel g pt ploc dur rest (i + 1) (some (i, dtp, d.hourly_rate))
          else if dtp = bd ∧ d.hourly_rate < br then
            fbdGo fuel g pt ploc dur rest (i + 1) (some (i, dtp, d.hourly_rate))
          else fbdGo fuel g pt ploc dur rest (i + 1) (some (bi, bd, br))

/-- Transcription of `Ride.find_best_driver`: returns the position of the
selected driver in the list (`some none` = no driver qualifies, matching
the source's `None`; outer `none` = the call raised). -/
def find_best_driver (fuel : Nat) (g : Graph β) (drivers : List (Driver β))
    (pt : β) (ploc : Int) (dur : β) : Option (Option Nat) :=
  fbdGo fuel g pt ploc dur drivers 0 none

/-- Python `if loc not in graph: graph[loc] = []`. -/
def addKey (g : Graph β) (k : Int) : Graph β :=
  match lookupA g k with
  | some _ => g
  | none => g ++ [(k, [])]

/-- Python `graph[k].append(e)` (the key is always present at the call
sites in `build_graph`). -/
def addEdge (g : Graph β) (k : Int) (e : Int × β) : Graph β :=
  match g with
  | [] => []
  | (k', l) :: rest =>
    if k' = k then (k', l ++ [e]) :: rest else (k', l) :: addEdge rest k e

/-- The body of the first `for ride in rides` loop of `build_graph`:
create the pickup and drop-off keys, add the two ride-leg edges, and
collect the drop-off. -/
def phase1Step (acc : Graph β × List Int) (r : Ride β) : Graph β × List Int :=
  let g1 := addKey acc.1 r.pickup_location
  let g2 := addKey g1 r.dropoff_location
  let g3 := addEdge g2 r.pickup_location (r.dropoff_location, r.estimated_ride_duration)
  let g4 := addEdge g3 r.dropoff_location (r.pickup_location, r.estimated_ride_duration)
  (g4, acc.2 ++ [r.dropoff_location])

/-- The first `for ride in rides` loop of `build_graph`. -/
def phase1 (rides : List (Ride β)) : Graph β × List Int :=
  rides.foldl phase1Step ([], [])

/-- The body of the inner `for ride in rides` loop of the drop-off pass
of `build_graph`: connect the drop-off `dl` to the ride's pickup if not
already a neighbor, with the estimated repositioning time. -/
def phase2Step (est : Int → Int → β) (dl : Int) (g : Graph β) (r : Ride β) : Graph β :=
  match lookupA g dl with
  | none => g
  | some adj =>
    if adj.all (fun t => decide (r.pickup_location ≠ t.1)) then
      addEdge g dl (r.pickup_location, est dl r.pickup_location)
    else g

/-- The `for dropoff_location in dropoff_locations` loop of `build_graph`. -/
def phase2 (est : Int → Int → β) (rides : List (Ride β)) (g0 : Graph β)
    (dropoffs : List Int) : Graph β :=
  dropoffs.foldl (fun g dl => rides.foldl (phase2Step est dl) g) g0

/-- Python `any(start <= ride.pickup_time <= end for start, end in
driver.availability)`: the ride's pickup time falls in one of the
driver's declared availability windows. -/
def windowOk (d : Driver β) (r : Ride β) : Bool :=
  d.availability.any (fun w => decide (w.1 ≤ r.pickup_time) && decide (r.pickup_time ≤ w.2))

/-- The body of the inner `for ride in rides` loop of the driver pass of
`build_graph`: add an edge from the driver's location to the ride's
pickup if the pickup time is inside an availability window and the
pickup is not already a neighbor. -/
def phase3Ride (est : Int → Int → β) (d : Driver β) (g : Graph β) (r : Ride β) :
    Graph β :=
  if windowOk d r then
    match lookupA g d.location with
    | none => g
    | some adj =>
      if adj.all (fun t => decide (r.pickup_location ≠ t.1)) then
        addEdge g d.location (r.pickup_location, est d.location r.pickup_location)
      else g
  else g

/-- The body of the `for driver in drivers` loop of `build_graph`. Note
the source only adds driver edges when the driver's location is not
already a key of the graph. -/
def phase3Step (est : Int → Int → β) (rides : List (Ride β)) (g : Graph β)
    (d : Driver β) : Graph β :=
  match lookupA g d.location with
  | some _ => g
  | none => rides.foldl (phase3Ride est d) (g ++ [(d.location, [])])

/-- The `for driver in drivers` loop of `build_graph`. -/
def phase3 (est : Int → Int → β) (rides : List (Ride β))
    (drivers : List (Driver β)) (g0 : Graph β) : Graph β :=
  drivers.foldl (phase3Step est rides) g0

/-- Transcription of `build_graph(rides, drivers)`; `est x y` stands for
`haversine(x, y) / MILES_PER_MINUTE`. -/
def build_graph (est : Int → Int → β) (rides : List (Ride β))
    (drivers : List (Driver β)) : Graph β :=
  phase3 est rides drivers (phase2 est rides (phase1 rides).1 (phase1 rides).2)

/-- Stable insertion of a ride into a list sorted by `pickup_time`: the
new ride goes after every ride with an equal or smaller key. -/
def insertSorted (r : Ride β) : List (Ride β) → List (Ride β)
  | [] => [r]
  | x :: xs =>
    if x.pickup_time ≤ r.pickup_time then x :: insertSorted r xs else r :: x :: xs

/-- Transcription of `rides.sort(key=lambda x: x.pickup_time)`: Python's
`list.sort` is a stable sort by the key, and the stable sort by a key is
unique, so this left-fold insertion sort computes exactly the list the
source leaves in the caller's variable. -/
def sortRides (rides : List (Ride β)) : List (Ride β) :=
  rides.foldl (fun acc r => insertSorted r acc) []

/-- Python `{driver.driver_id: [] for driver in drivers}` (first
occurrence fixes the key position). -/
def initAssign (drivers : List (Driver β)) : List (Int × List (Ride β)) :=
  drivers.foldl
    (fun a d =>
      match lookupA a d.driver_id with
      | some _ => a
      | none => a ++ [(d.driver_id, [])])
    []

/-- Python `assignments[best_driver.driver_id].append(ride)`. -/
def appendAssign : List (Int × List (Ride β)) → Int → Ride β → List (Int × List (Ride β))
  | [], _, _ => []
  | (k, l) :: rest, key, r =>
    if k = key then (k, l ++ [r]) :: rest else (k, l) :: appendAssign rest key r

/-- One iteration of the `for ride in rides` loop of
`assign_rides_to_drivers`: find the best driver; if one is selected,
append the ride to its assignment list, reserve exactly
`[pickup_time, pickup_time + estimated_ride_duration]` in its tree, and
move it to the ride's drop-off location. `none` propagates a crashed
`find_best_driver` call. -/
def assignStep (fuel : Nat) (g : Graph β)
    (st : Option (List (Driver β) × List (Int × List (Ride β)))) (r : Ride β) :
    Option (List (Driver β) × List (Int × List (Ride β))) :=
  match st with
  | none => none
  | some (ds, asg) =>
    match find_best_driver fuel g ds r.pickup_time r.pickup_location
        r.estimated_ride_duration with
    | none => none
    | some none => some (ds, asg)
    | some (some i) =>
      match ds[i]? with
      | none => none
      | some d =>
        some
          (ds.set i (Driver.reserve_interval d r.pickup_time
              (r.pickup_time + r.estimated_ride_duration)
            |> fun d' => { d' with location := r.dropoff_location }),
            appendAssign asg d.driver_id r)

/-- Transcription of `assign_rides_to_drivers(rides, drivers, graph)`.
The first component is the caller's `rides` list as the call leaves it
(`rides.sort` mutates it in place before the loop); the second is the
final driver states and the assignment mapping, or `none` if the loop
raised. -/
def assign_rides_to_drivers (fuel : Nat) (g : Graph β) (rides : List (Ride β))
    (drivers : List (Driver β)) :
    List (Ride β) × Option (List (Driver β) × List (Int × List (Ride β))) :=
  (sortRides rides,
    (sortRides rides).foldl (assignStep fuel g) (some (drivers, initAssign drivers)))

/-- Eligibility of a driver in `find_best_driver`, given the travel time
`dt d` computed by the estimator: available for the full adjusted window
`[pickup_time - travel, pickup_time + duration]`. -/
def eligAt (pt dur : β) (dt : Driver β → β) (d : Driver β) : Prop :=
  ITree.is_available d.tree (pt - dt d) (pt + dur) = true

/-- The loop invariant of `find_best_driver`: after the drivers before
position `i0` have been scanned, `best` is `none` iff none of them was
eligible, and otherwise records the position, travel time and rate of
the unique eligible driver minimizing `(travel time, rate, position)`
lexicographically among them. -/
def fbdInv (pt dur : β) (dt : Driver β → β) (drivers : List (Driver β))
    (i0 : Nat) : Option (Nat × β × β) → Prop
  | none => ∀ j : Fin drivers.length, (j : Nat) < i0 → ¬ eligAt pt dur dt (drivers.get j)
  | some (bi, bd, br) =>
    ∃ hbi : bi < drivers.length, bi < i0 ∧
      eligAt pt dur dt (drivers.get ⟨bi, hbi⟩) ∧
      bd = dt (drivers.get ⟨bi, hbi⟩) ∧
      br = (drivers.get ⟨bi, hbi⟩).hourly_rate ∧
      ∀ j : Fin drivers.length, (j : Nat) < i0 →
        eligAt pt dur dt (drivers.get j) → (j : Nat) ≠ bi →
        bd < dt (drivers.get j) ∨
          (bd = dt (drivers.get j) ∧
            (br < (drivers.get j).hourly_rate ∨
              (br = (drivers.get j).hourly_rate ∧ bi < (j : Nat))))

/-- Concrete graph for the C6 witness: pickup node `1` two minutes from
node `0`. -/
def c6g : Graph Int := [(0, [(1, 2)]), (1, [])]

/-- First witness driver: rate 5, at node 0, fully available. -/
def c6d1 : Driver Int := mkDriver 1 5 0 [(-100, 100)]

/-- Second witness driver: rate 3, at node 0, fully available. -/
def c6d2 : Driver Int := mkDriver 2 3 0 [(-100, 100)]

/-- The single ride of the C7 witness: pickup time 10 at node 1, drop-off
at node 2, duration 5. -/
def c7ride : Ride Int := ⟨10, 1, 0, 2, 0, 5⟩

/-- The driver state left by the C7 witness assignment: moved to the
drop-off node 2, with `[10, 15]` carved out of the free window. -/
def c7driverAfter : Driver Int :=
  ⟨1, 5, 2, [(-100, 100)],
    ITree.node ITree.leaf (-100) 10 100 (ITree.node ITree.leaf 15 100 100 ITree.leaf)⟩

/-- Rides for the C8 concrete instances: `c8r1` from node 1 to node 2 at
time 10, `c8r2` from node 3 to node 4 at time 20. -/
def c8r1 : Ride Int := ⟨10, 1, 0, 2, 0, 5⟩

/-- Second C8 ride. -/
def c8r2 : Ride Int := ⟨20, 3, 0, 4, 0, 7⟩

/-- A driver starting at a fresh node 50, available only around the
first ride's pickup time. -/
def c8dFresh : Driver Int := mkDriver 9 4 50 [(0, 15)]

/-- A driver starting exactly at ride `c8r1`'s pickup node 1, available
for both rides' pickup times. -/
def c8dAtPickup : Driver Int := mkDriver 9 4 1 [(0, 100)]

end Matching

namespace ITree

theorem disj_symm : Symmetric (Disj (α := α)) := by
  intro p q h; exact h.symm

theorem disjB_iff {p q : α × α} : disjB p q = true ↔ Disj p q := by
  simp [disjB, Disj]

theorem delete_lt {lo a : α} (h : lo < a) (l : ITree α) (b m : α) (r : ITree α) (hi : α) :
    delete (node l a b m r) lo hi = withMax (delete l lo hi) a b r := by
  rw [delete.eq_def]; simp [h]

theorem delete_gt {lo a : α} (h : a < lo) (l : ITree α) (b m : α) (r : ITree α) (hi : α) :
    delete (node l a b m r) lo hi = withMax l a b (delete r lo hi) := by
  rw [delete.eq_def]; simp [h, asymm h]

theorem delete_ne {lo a b hi : α} (h1 : ¬lo < a) (h2 : ¬a < lo) (h3 : ¬b = hi)
    (l : ITree α) (m : α) (r : ITree α) :
    delete (node l a b m r) lo hi = withMax l a b r := by
  rw [delete.eq_def]; simp [h1, h2, h3]

theorem delete_found_leafL {lo a b hi : α} (h1 : ¬lo < a) (h2 : ¬a < lo) (h3 : b = hi)
    (m : α) (r : ITree α) :
    delete (node leaf a b m r) lo hi = r := by
  rw [delete.eq_def]; simp [h1, h2, h3]

theorem delete_found_leafR {lo a b hi : α} (h1 : ¬lo < a) (h2 : ¬a < lo) (h3 : b = hi)
    (ll : ITree α) (llo lhi lm : α) (lr : ITree α) (m : α) :
    delete (node (node ll llo lhi lm lr) a b m leaf) lo hi = node ll llo lhi lm lr := by
  rw [delete.eq_def]; simp [h1, h2, h3]

theorem delete_found_two {lo a b hi : α} (h1 : ¬lo < a) (h2 : ¬a < lo) (h3 : b = hi)
    (ll : ITree α) (llo lhi lm : α) (lr : ITree α) (m : α)
    (rl : ITree α) (rlo rhi rm : α) (rr : ITree α) :
    delete (node (node ll llo lhi lm lr) a b m (node rl rlo rhi rm rr)) lo hi =
      withMax (node ll llo lhi lm lr) (findMinFrom rlo rhi rl).1 (findMinFrom rlo rhi rl).2
        (delete (node rl rlo rhi rm rr) (findMinFrom rlo rhi rl).1
          (findMinFrom rlo rhi rl).2) := by
  rw [delete.eq_def]; simp [h1, h2, h3]

theorem searchOverlap_leafL (a b m : α) (r : ITree α) (lo hi : α) :
    searchOverlap (node leaf a b m r) lo hi =
      (if overlapB (a, b) (lo, hi) then [(a, b)] else []) ++ searchOverlap r lo hi := by
  rw [searchOverlap.eq_def]; simp

theorem searchOverlap_nodeL (ll : ITree α) (llo lhi lm : α) (lr : ITree α)
    (a b m : α) (r : ITree α) (lo hi : α) :
    searchOverlap (node (node ll llo lhi lm lr) a b m r) lo hi =
      (if overlapB (a, b) (lo, hi) then [(a, b)] else []) ++
        ((if lo ≤ lm then searchOverlap (node ll llo lhi lm lr) lo hi else []) ++
          searchOverlap r lo hi) := by
  rw [searchOverlap.eq_def]

theorem isAvail_leafL (a b m : α) (r : ITree α) (lo hi : α) :
    is_available (node leaf a b m r) lo hi =
      (if a ≤ lo ∧ hi ≤ b then true else is_available r lo hi) := by
  rw [is_available.eq_def]; simp

theorem isAvail_nodeL (ll : ITree α) (llo lhi lm : α) (lr : ITree α)
    (a b m : α) (r : ITree α) (lo hi : α) :
    is_available (node (node ll llo lhi lm lr) a b m r) lo hi =
      (if a ≤ lo ∧ hi ≤ b then true
       else
        (if lo ≤ lm then is_available (node ll llo lhi lm lr) lo hi else false) ||
          is_available r lo hi) := by
  rw [is_available.eq_def]

theorem maxOk_bound {t : ITree α} (h : MaxOk t) (d : α) :
    ∀ p ∈ elems t, p.2 ≤ mxOf d t := by
  cases t with
  | leaf => intro p hp; simp [elems] at hp
  | node l a b m r =>
    obtain ⟨h1, h2, h3, _, _⟩ := h
    intro p hp
    rcases (by simpa [elems] using hp : p = (a, b) ∨ p ∈ elems l ∨ p ∈ elems r) with
      rfl | hp | hp
    · exact h1
    · exact h2 p hp
    · exact h3 p hp

theorem elems_insert (t : ITree α) (lo hi : α) :
    List.Perm (elems (insert_interval t lo hi)) ((lo, hi) :: elems t) := by
  induction t with
  | leaf => simp [insert_interval, elems]
  | node l a b m r ihl ihr =>
    by_cases h : lo < a
    · simp only [insert_interval, if_pos h, elems]
      exact ((ihl.append_right _).cons _).trans (List.Perm.swap _ _ _)
    · simp only [insert_interval, if_neg h, elems]
      refine (((List.Perm.append_left _ ihr).cons _).trans ?_)
      exact (List.Perm.cons _ List.perm_middle).trans (List.Perm.swap _ _ _)

theorem mem_insert_iff {t : ITree α} {lo hi : α} {p : α × α} :
    p ∈ elems (insert_interval t lo hi) ↔ p = (lo, hi) ∨ p ∈ elems t := by
  rw [(elems_insert t lo hi).mem_iff]; simp

theorem bst_insert {t : ITree α} (h : Bst t) (lo hi : α) : Bst (insert_interval t lo hi) := by
  induction t with
  | leaf => simp [insert_interval, Bst, elems]
  | node l a b m r ihl ihr =>
    obtain ⟨h1, h2, h3, h4⟩ := h
    by_cases hc : lo < a
    · simp only [insert_interval, if_pos hc, Bst]
      refine ⟨?_, h2, ihl h3, h4⟩
      intro p hp
      rcases mem_insert_iff.mp hp with rfl | hp
      · exact hc
      · exact h1 p hp
    · simp only [insert_interval, if_neg hc, Bst]
      refine ⟨h1, ?_, h3, ihr h4⟩
      intro p hp
      rcases mem_insert_iff.mp hp with rfl | hp
      · exact le_of_not_lt hc
      · exact h2 p hp

theorem maxOk_insert {t : ITree α} (h : MaxOk t) (lo hi : α) : MaxOk (insert_interval t lo hi) := by
  induction t with
  | leaf => simp [insert_interval, MaxOk, elems]
  | node l a b m r ihl ihr =>
    obtain ⟨h1, h2, h3, h4, h5⟩ := h
    by_cases hc : lo < a
    · simp only [insert_interval, if_pos hc, MaxOk]
      refine ⟨h1.trans (le_max_left _ _), ?_, fun p hp => (h3 p hp).trans (le_max_left _ _),
        ihl h4, h5⟩
      intro p hp
      rcases mem_insert_iff.mp hp with rfl | hp
      · exact le_max_right _ _
      · exact (h2 p hp).trans (le_max_left _ _)
    · simp only [insert_interval, if_neg hc, MaxOk]
      refine ⟨h1.trans (le_max_left _ _), fun p hp => (h2 p hp).trans (le_max_left _ _), ?_,
        h4, ihr h5⟩
      intro p hp
      rcases mem_insert_iff.mp hp with rfl | hp
      · exact le_max_right _ _
      · exact (h3 p hp).trans (le_max_left _ _)

theorem elems_withMax (l : ITree α) (a b : α) (r : ITree α) :
    elems (withMax l a b r) = (a, b) :: (elems l ++ elems r) := by
  cases l <;> cases r <;> simp [withMax, elems]

theorem maxOk_withMax {l r : ITree α} (hl : MaxOk l) (hr : MaxOk r) (a b : α) :
    MaxOk (withMax l a b r) := by
  cases l with
  | leaf =>
    cases r with
    | leaf => simp [withMax, MaxOk, elems]
    | node rl rlo rhi rm rr =>
      refine ⟨le_max_left _ _, ?_, ?_, trivial, hr⟩
      · intro p hp; simp [elems] at hp
      · intro p hp
        exact (maxOk_bound hr b p hp).trans (le_max_right _ _)
  | node ll llo lhi lm lr =>
    cases r with
    | leaf =>
      refine ⟨le_max_left _ _, ?_, ?_, hl, trivial⟩
      · intro p hp
        exact (maxOk_bound hl b p hp).trans (le_max_right _ _)
      · intro p hp; simp [elems] at hp
    | node rl rlo rhi rm rr =>
      refine ⟨le_max_left _ _, ?_, ?_, hl, hr⟩
      · intro p hp
        exact (maxOk_bound hl b p hp).trans
          ((le_max_left _ _).trans (le_max_right _ _))
      · intro p hp
        exact (maxOk_bound hr b p hp).trans
          ((le_max_right _ _).trans (le_max_right _ _))

theorem findMinFrom_mem (l : ITree α) (a b : α) :
    findMinFrom a b l ∈ (a, b) :: elems l := by
  induction l generalizing a b with
  | leaf => simp [findMinFrom]
  | node ll llo lhi lm lr ihl ihr =>
    have h := ihl llo lhi
    simp only [findMinFrom, elems, List.mem_cons, List.mem_append] at h ⊢
    tauto

theorem findMinFrom_min (l : ITree α) (a b : α) (hb : Bst l)
    (hlt : ∀ p ∈ elems l, p.1 < a) :
    (findMinFrom a b l).1 ≤ a ∧ ∀ p ∈ elems l, (findMinFrom a b l).1 ≤ p.1 := by
  induction l generalizing a b with
  | leaf => exact ⟨le_refl a, by simp [elems]⟩
  | node ll llo lhi lm lr ihl ihr =>
    obtain ⟨g1, g2, g3, g4⟩ := hb
    have hlo : llo < a := hlt (llo, lhi) (by simp [elems])
    obtain ⟨m1, m2⟩ := ihl llo lhi g3 g1
    simp only [findMinFrom]
    refine ⟨m1.trans hlo.le, ?_⟩
    intro p hp
    rcases (by simpa [elems] using hp : p = (llo, lhi) ∨ p ∈ elems ll ∨ p ∈ elems lr) with
      rfl | hp | hp
    · exact m1
    · exact m2 p hp
    · exact m1.trans (g2 p hp)

theorem bst_withMax {l r : ITree α} {a : α} (b : α)
    (h1 : ∀ p ∈ elems l, p.1 < a) (h2 : ∀ p ∈ elems r, a ≤ p.1)
    (h3 : Bst l) (h4 : Bst r) : Bst (withMax l a b r) := by
  cases l <;> cases r <;> exact ⟨h1, h2, h3, h4⟩

theorem elems_delete_not_mem {lo hi : α} :
    ∀ {t : ITree α}, (lo, hi) ∉ elems t → elems (delete t lo hi) = elems t := by
  intro t
  induction t with
  | leaf => intro _; rfl
  | node l a b m r ihl ihr =>
    intro h
    have hroot : ((lo, hi) : α × α) ≠ (a, b) := fun hc => h (by simp [elems, hc])
    have hl : (lo, hi) ∉ elems l := fun hc => h (by simp [elems, hc])
    have hr : (lo, hi) ∉ elems r := fun hc => h (by simp [elems, hc])
    by_cases hlo : lo < a
    · simp [delete_lt hlo, elems_withMax, elems, ihl hl]
    · by_cases hgt : a < lo
      · simp [delete_gt hgt, elems_withMax, elems, ihr hr]
      · have ha : a = lo := le_antisymm (le_of_not_lt hlo) (le_of_not_lt hgt)
        have hbh : ¬b = hi := fun hc => hroot (by simp [ha, hc])
        simp [delete_ne hlo hgt hbh, elems_withMax, elems]

theorem perm_delete :
    ∀ (t : ITree α), Bst t → ((elems t).map Prod.fst).Nodup →
    ∀ (lo hi : α), (lo, hi) ∈ elems t →
    List.Perm ((lo, hi) :: elems (delete t lo hi)) (elems t) := by
  intro t
  induction t with
  | leaf => intro _ _ lo hi hm; simp [elems] at hm
  | node l a b m r ihl ihr =>
    intro hb hn lo hi hm
    obtain ⟨h1, h2, h3, h4⟩ := hb
    have hn' : (a :: ((elems l).map Prod.fst ++ (elems r).map Prod.fst)).Nodup := by
      simpa [elems] using hn
    have hnl : ((elems l).map Prod.fst).Nodup :=
      ((List.nodup_cons.mp hn').2).of_append_left
    have hnr : ((elems r).map Prod.fst).Nodup :=
      ((List.nodup_cons.mp hn').2).of_append_right
    have hna : a ∉ (elems l).map Prod.fst ++ (elems r).map Prod.fst :=
      (List.nodup_cons.mp hn').1
    by_cases hlo : lo < a
    · have hml : (lo, hi) ∈ elems l := by
        rcases (by simpa [elems] using hm :
            (lo, hi) = ((a, b) : α × α) ∨ (lo, hi) ∈ elems l ∨ (lo, hi) ∈ elems r) with
          hc | hc | hc
        · exact absurd (congrArg Prod.fst hc) (ne_of_lt hlo)
        · exact hc
        · exact absurd (h2 _ hc) (not_le.mpr hlo)
      simp only [delete_lt hlo, elems_withMax, elems]
      refine (List.Perm.swap _ _ _).trans (List.Perm.cons _ ?_)
      exact (ihl h3 hnl lo hi hml).append_right _

    · by_cases hgt : a < lo
      · have hmr : (lo, hi) ∈ elems r := by
          rcases (by simpa [elems] using hm :
              (lo, hi) = ((a, b) : α × α) ∨ (lo, hi) ∈ elems l ∨ (lo, hi) ∈ elems r) with
            hc | hc | hc
          · exact absurd (congrArg Prod.fst hc).symm (ne_of_lt hgt)
          · exact absurd (h1 _ hc) (not_lt.mpr hgt.le)
          · exact hc
        simp only [delete_gt hgt, elems_withMax, elems]
        refine (List.Perm.swap _ _ _).trans (List.Perm.cons _ ?_)
        exact List.perm_middle.symm.trans (List.Perm.append_left _ (ihr h4 hnr lo hi hmr))
      · have ha : a = lo := le_antisymm (le_of_not_lt hlo) (le_of_not_lt hgt)
        by_cases hbh : b = hi
        · subst ha hbh
          cases l with
          | leaf =>
            simp [delete_found_leafL hlo hgt rfl, elems]
          | node ll llo lhi llm llr =>
            cases r with
            | leaf =>
              simp [delete_found_leafR hlo hgt rfl, elems]
            | node rl rlo rhi rm rr =>
              simp only [delete_found_two hlo hgt rfl, elems_withMax, elems]
              have htm := findMinFrom_mem rl rlo rhi
              have htmem : findMinFrom rlo rhi rl ∈ elems (node rl rlo rhi rm rr) := by
                simp only [elems, List.mem_cons, List.mem_append]
                rcases List.mem_cons.mp htm with hc | hc
                · exact Or.inl hc
                · exact Or.inr (Or.inl hc)
              have hper := ihr h4 hnr (findMinFrom rlo rhi rl).1 (findMinFrom rlo rhi rl).2
                (by simpa using htmem)
              refine List.Perm.cons _ ?_
              refine List.perm_middle.symm.trans ?_
              exact List.Perm.append_left _ (by simpa using hper)
        · exfalso
          rcases (by simpa [elems] using hm :
              (lo, hi) = ((a, b) : α × α) ∨ (lo, hi) ∈ elems l ∨ (lo, hi) ∈ elems r) with
            hc | hc | hc
          · exact hbh (by injection hc with e1 e2; exact e2.symm)
          · exact absurd (h1 _ hc) (by simp [ha])
          · exact hna (List.mem_append.mpr (Or.inr (by
              refine List.mem_map.mpr ⟨(lo, hi), hc, ?_⟩
              simp [ha])))

theorem mem_delete {t : ITree α} (hb : Bst t) (hn : ((elems t).map Prod.fst).Nodup)
    {lo hi : α} {p : α × α} (hp : p ∈ elems (delete t lo hi)) : p ∈ elems t := by
  by_cases hm : (lo, hi) ∈ elems t
  · exact (perm_delete t hb hn lo hi hm).mem_iff.mp (List.mem_cons_of_mem _ hp)
  · rwa [elems_delete_not_mem hm] at hp

theorem lows_node {l : ITree α} {a b m : α} {r : ITree α}
    (hn : ((elems (node l a b m r)).map Prod.fst).Nodup) :
    ((elems l).map Prod.fst).Nodup ∧ ((elems r).map Prod.fst).Nodup := by
  have hn' : (a :: ((elems l).map Prod.fst ++ (elems r).map Prod.fst)).Nodup := by
    simpa [elems] using hn
  exact ⟨((List.nodup_cons.mp hn').2).of_append_left,
    ((List.nodup_cons.mp hn').2).of_append_right⟩

theorem findMin_spec {rl : ITree α} {rlo rhi rm : α} {rr : ITree α}
    (hb : Bst (node rl rlo rhi rm rr)) :
    findMinFrom rlo rhi rl ∈ elems (node rl rlo rhi rm rr) ∧
      ∀ p ∈ elems (node rl rlo rhi rm rr), (findMinFrom rlo rhi rl).1 ≤ p.1 := by
  obtain ⟨g1, g2, g3, g4⟩ := hb
  obtain ⟨m1, m2⟩ := findMinFrom_min rl rlo rhi g3 g1
  constructor
  · have h := findMinFrom_mem rl rlo rhi
    simp only [elems, List.mem_cons, List.mem_append] at h ⊢
    tauto
  · intro p hp
    rcases (by simpa [elems] using hp :
        p = ((rlo, rhi) : α × α) ∨ p ∈ elems rl ∨ p ∈ elems rr) with rfl | hp | hp
    · exact m1
    · exact m2 p hp
    · exact m1.trans (g2 p hp)

theorem bst_delete :
    ∀ (t : ITree α), Bst t → ((elems t).map Prod.fst).Nodup →
    ∀ (lo hi : α), Bst (delete t lo hi) := by
  intro t
  induction t with
  | leaf => intro _ _ lo hi; exact trivial
  | node l a b m r ihl ihr =>
    intro hb hn lo hi
    obtain ⟨h1, h2, h3, h4⟩ := hb
    obtain ⟨hnl, hnr⟩ := lows_node hn
    by_cases hlo : lo < a
    · rw [delete_lt hlo]
      refine bst_withMax b ?_ h2 (ihl h3 hnl lo hi) h4
      intro p hp
      exact h1 p (mem_delete h3 hnl hp)
    · by_cases hgt : a < lo
      · rw [delete_gt hgt]
        refine bst_withMax b h1 ?_ h3 (ihr h4 hnr lo hi)
        intro p hp
        exact h2 p (mem_delete h4 hnr hp)
      · by_cases hbh : b = hi
        · cases l with
          | leaf => rw [delete_found_leafL hlo hgt hbh]; exact h4
          | node ll llo lhi llm llr =>
            cases r with
            | leaf => rw [delete_found_leafR hlo hgt hbh]; exact h3
            | node rl rlo rhi rm rr =>
              rw [delete_found_two hlo hgt hbh]
              obtain ⟨tmem, tmin⟩ := findMin_spec h4
              refine bst_withMax _ ?_ ?_ h3 (ihr h4 hnr _ _)
              · intro p hp
                exact lt_of_lt_of_le (h1 p hp) (h2 _ tmem)
              · intro p hp
                exact tmin p (mem_delete h4 hnr hp)
        · rw [delete_ne hlo hgt hbh]
          exact bst_withMax b h1 h2 h3 h4

theorem maxOk_delete :
    ∀ (t : ITree α), MaxOk t → ∀ (lo hi : α), MaxOk (delete t lo hi) := by
  intro t
  induction t with
  | leaf => intro _ lo hi; exact trivial
  | node l a b m r ihl ihr =>
    intro hm lo hi
    obtain ⟨g1, g2, g3, g4, g5⟩ := hm
    by_cases hlo : lo < a
    · rw [delete_lt hlo]; exact maxOk_withMax (ihl g4 lo hi) g5 a b
    · by_cases hgt : a < lo
      · rw [delete_gt hgt]; exact maxOk_withMax g4 (ihr g5 lo hi) a b
      · by_cases hbh : b = hi
        · cases l with
          | leaf => rw [delete_found_leafL hlo hgt hbh]; exact g5
          | node ll llo lhi llm llr =>
            cases r with
            | leaf => rw [delete_found_leafR hlo hgt hbh]; exact g4
            | node rl rlo rhi rm rr =>
              rw [delete_found_two hlo hgt hbh]
              exact maxOk_withMax g4 (ihr g5 _ _) _ _
        · rw [delete_ne hlo hgt hbh]
          exact maxOk_withMax g4 g5 a b

theorem lowsNodup_delete {t : ITree α} (hb : Bst t)
    (hn : ((elems t).map Prod.fst).Nodup) (lo hi : α) :
    ((elems (delete t lo hi)).map Prod.fst).Nodup := by
  by_cases hm : (lo, hi) ∈ elems t
  · have hp := (perm_delete t hb hn lo hi hm).map Prod.fst
    have hd := hp.nodup_iff.mpr hn
    exact (List.nodup_cons.mp (by simpa using hd)).2
  · rw [elems_delete_not_mem hm]; exact hn

theorem lowsNodup_insert {t : ITree α} (hn : ((elems t).map Prod.fst).Nodup)
    {lo : α} (hlo : lo ∉ (elems t).map Prod.fst) (hi : α) :
    ((elems (insert_interval t lo hi)).map Prod.fst).Nodup := by
  have hp := (elems_insert t lo hi).map Prod.fst
  rw [hp.nodup_iff]
  have hlo' : ∀ x, (lo, x) ∉ elems t := fun x hx =>
    hlo (List.mem_map.mpr ⟨(lo, x), hx, rfl⟩)
  simpa using ⟨hlo', hn⟩

theorem searchOverlap_eq_filter :
    ∀ (t : ITree α), MaxOk t → ∀ (lo hi : α),
      searchOverlap t lo hi = (elems t).filter (fun p => overlapB p (lo, hi)) := by
  intro t
  induction t with
  | leaf => intro _ lo hi; rfl
  | node l a b m r ihl ihr =>
    intro hm lo hi
    obtain ⟨g1, g2, g3, g4, g5⟩ := hm
    have hroot : (elems (node l a b m r)).filter (fun p => overlapB p (lo, hi)) =
        (if overlapB (a, b) (lo, hi) then [(a, b)] else []) ++
          ((elems l).filter (fun p => overlapB p (lo, hi)) ++
            (elems r).filter (fun p => overlapB p (lo, hi))) := by
      simp only [elems, List.filter_cons, List.filter_append]
      split <;> simp
    cases l with
    | leaf =>
      rw [searchOverlap_leafL, hroot, ihr g5 lo hi]
      simp [elems]
    | node ll llo lhi lm lr =>
      rw [searchOverlap_nodeL, hroot, ihr g5 lo hi]
      by_cases hpr : lo ≤ lm
      · rw [if_pos hpr, ihl g4 lo hi]
      · rw [if_neg hpr]
        have hnil : (elems (node ll llo lhi lm lr)).filter
            (fun p => overlapB p (lo, hi)) = [] := by
          refine List.filter_eq_nil_iff.mpr ?_
          intro p hp
          have hb2 : p.2 ≤ lm := maxOk_bound g4 lo p hp
          simp only [overlapB, Bool.and_eq_true, decide_eq_true_eq, not_and]
          intro _
          exact fun hcon => hpr (hcon.trans hb2)
        rw [hnil]

theorem isAvail_sound :
    ∀ (t : ITree α) (lo hi : α), is_available t lo hi = true →
      ∃ p ∈ elems t, p.1 ≤ lo ∧ hi ≤ p.2 := by
  intro t
  induction t with
  | leaf => intro lo hi h; simp [is_available] at h
  | node l a b m r ihl ihr =>
    intro lo hi h
    by_cases hc : a ≤ lo ∧ hi ≤ b
    · exact ⟨(a, b), by simp [elems], hc⟩
    · have hrec : (∃ p ∈ elems l, p.1 ≤ lo ∧ hi ≤ p.2) ∨
          ∃ p ∈ elems r, p.1 ≤ lo ∧ hi ≤ p.2 := by
        cases l with
        | leaf =>
          rw [isAvail_leafL, if_neg hc] at h
          exact Or.inr (ihr lo hi h)
        | node ll llo lhi lm lr =>
          rw [isAvail_nodeL, if_neg hc] at h
          rcases Bool.or_eq_true_iff.mp h with h' | h'
          · by_cases hpr : lo ≤ lm
            · rw [if_pos hpr] at h'
              exact Or.inl (ihl lo hi h')
            · rw [if_neg hpr] at h'
              exact absurd h' (by simp)
          · exact Or.inr (ihr lo hi h')
      rcases hrec with ⟨p, hp, hcp⟩ | ⟨p, hp, hcp⟩
      · exact ⟨p, by simp [elems, hp], hcp⟩
      · exact ⟨p, by simp [elems, hp], hcp⟩

theorem isAvail_complete :
    ∀ (t : ITree α), MaxOk t → ∀ (lo hi : α), lo ≤ hi →
      ∀ p ∈ elems t, p.1 ≤ lo → hi ≤ p.2 → is_available t lo hi = true := by
  intro t
  induction t with
  | leaf => intro _ lo hi _ p hp; simp [elems] at hp
  | node l a b m r ihl ihr =>
    intro hm lo hi hlh p hp hp1 hp2
    obtain ⟨g1, g2, g3, g4, g5⟩ := hm
    by_cases hc : a ≤ lo ∧ hi ≤ b
    · cases l with
      | leaf => rw [isAvail_leafL, if_pos hc]
      | node ll llo lhi lm lr => rw [isAvail_nodeL, if_pos hc]
    · rcases (by simpa [elems] using hp :
          p = ((a, b) : α × α) ∨ p ∈ elems l ∨ p ∈ elems r) with rfl | hpl | hpr
      · exact absurd ⟨hp1, hp2⟩ hc
      · cases l with
        | leaf => simp [elems] at hpl
        | node ll llo lhi lm lr =>
          rw [isAvail_nodeL, if_neg hc]
          have hprune : lo ≤ lm :=
            hlh.trans (hp2.trans (maxOk_bound g4 lo p hpl))
          rw [if_pos hprune, ihl g4 lo hi hlh p hpl hp1 hp2]
          simp
      · have hr : is_available r lo hi = true := ihr g5 lo hi hlh p hpr hp1 hp2
        cases l with
        | leaf => rw [isAvail_leafL, if_neg hc]; exact hr
        | node ll llo lhi lm lr =>
          rw [isAvail_nodeL, if_neg hc, hr]
          simp

theorem disj_sub {p q : α × α} {c d : α} (h : Disj p q) (hc : p.1 ≤ c) (hd : d ≤ p.2) :
    Disj (c, d) q := by
  rcases h with h | h
  · exact Or.inl (hd.trans h)
  · exact Or.inr (h.trans hc)

theorem lowsNodup_of_disj {l : List (α × α)} (hd : List.Pairwise Disj l)
    (hne : ∀ p ∈ l, p.1 < p.2) : (l.map Prod.fst).Nodup := by
  have hp : l.Pairwise (fun p q : α × α => p.1 ≠ q.1) := by
    refine List.Pairwise.imp_of_mem ?_ hd
    intro p q hpm hqm hdisj heq
    rcases hdisj with h | h
    · exact absurd (lt_of_lt_of_le (hne p hpm) h) (by simp [heq])
    · exact absurd (lt_of_lt_of_le (hne q hqm) h) (by simp [heq])
  exact List.pairwise_map.mpr hp

theorem inv_foldRes {lo hi : α} (hlh : lo ≤ hi) :
    ∀ (ov : List (α × α)) (t : ITree α) (rest : List (α × α)),
      Inv t → List.Perm (elems t) (ov ++ rest) →
      (∀ p ∈ ov, overlapB p (lo, hi) = true) →
      Inv (ov.foldl (reserveStep lo hi) t) ∧
        List.Perm (elems (ov.foldl (reserveStep lo hi) t))
          (rest ++ pieces lo hi ov) := by
  intro ov
  induction ov with
  | nil =>
    intro t rest hinv hperm _
    exact ⟨hinv, by simpa [pieces] using hperm⟩
  | cons p ov ih =>
    obtain ⟨p1, p2⟩ := p
    intro t rest hinv hperm hov
    obtain ⟨hb, hm, hd, hne⟩ := hinv
    have hnl : ((elems t).map Prod.fst).Nodup := lowsNodup_of_disj hd hne
    have hpm : ((p1, p2) : α × α) ∈ elems t := hperm.mem_iff.mpr (by simp)
    have hovh : overlapB ((p1, p2) : α × α) (lo, hi) = true := hov _ (by simp)
    have hov1 : p1 ≤ hi := by
      have := hovh; simp [overlapB] at this; exact this.1
    have hov2 : lo ≤ p2 := by
      have := hovh; simp [overlapB] at this; exact this.2
    have hdel := perm_delete t hb hnl p1 p2 hpm
    have e1 : List.Perm (elems (delete t p1 p2)) (ov ++ rest) :=
      (hdel.trans hperm).cons_inv
    set pcs : List (α × α) :=
      (if p1 < lo then [(p1, lo)] else []) ++ (if hi < p2 then [(hi, p2)] else []) with hpcs
    have estep : List.Perm (elems (reserveStep lo hi t (p1, p2))) (pcs ++ (ov ++ rest)) := by
      by_cases hc1 : p1 < lo <;> by_cases hc2 : hi < p2 <;>
        simp only [reserveStep, hpcs, hc1, hc2, if_pos, if_neg, ite_true, ite_false,
          not_false_iff, List.nil_append, List.append_nil, List.singleton_append]
      · refine ((elems_insert _ _ _).trans ?_)
        refine List.Perm.cons _ ((elems_insert _ _ _).trans (e1.cons _)) |>.trans ?_
        exact List.Perm.swap _ _ _
      · exact (elems_insert _ _ _).trans (e1.cons _)
      · exact (elems_insert _ _ _).trans (e1.cons _)
      · exact e1
    have hstep_bst : Bst (reserveStep lo hi t (p1, p2)) := by
      by_cases hc1 : p1 < lo <;> by_cases hc2 : hi < p2 <;>
        simp only [reserveStep, hc1, hc2, ite_true, ite_false] <;>
        first
          | exact bst_insert (bst_insert (bst_delete t hb hnl p1 p2) _ _) _ _
          | exact bst_insert (bst_delete t hb hnl p1 p2) _ _
          | exact bst_delete t hb hnl p1 p2
    have hstep_max : MaxOk (reserveStep lo hi t (p1, p2)) := by
      by_cases hc1 : p1 < lo <;> by_cases hc2 : hi < p2 <;>
        simp only [reserveStep, hc1, hc2, ite_true, ite_false] <;>
        first
          | exact maxOk_insert (maxOk_insert (maxOk_delete t hm p1 p2) _ _) _ _
          | exact maxOk_insert (maxOk_delete t hm p1 p2) _ _
          | exact maxOk_delete t hm p1 p2
    have hd' : List.Pairwise Disj (((p1, p2) : α × α) :: (ov ++ rest)) :=
      hd.perm hperm (fun h => h.symm)
    have hpd : ∀ q ∈ ov ++ rest, Disj (p1, p2) q := (List.pairwise_cons.mp hd').1
    have hY : List.Pairwise Disj (ov ++ rest) := (List.pairwise_cons.mp hd').2
    have hpcsY : ∀ x ∈ pcs, ∀ y ∈ ov ++ rest, Disj x y := by
      intro x hx y hy
      rw [hpcs] at hx
      rcases List.mem_append.mp hx with hx | hx
      · have : x = (p1, lo) := by
          by_cases hc1 : p1 < lo
          · simpa [hc1] using hx
          · simp [hc1] at hx
        subst this
        exact disj_sub (hpd y hy) (le_refl p1) hov2
      · have : x = (hi, p2) := by
          by_cases hc2 : hi < p2
          · simpa [hc2] using hx
          · simp [hc2] at hx
        subst this
        exact disj_sub (hpd y hy) hov1 (le_refl p2)
    have hpcsP : List.Pairwise Disj pcs := by
      rw [hpcs]
      by_cases hc1 : p1 < lo <;> by_cases hc2 : hi < p2 <;>
        simp [hc1, hc2, List.pairwise_cons, Disj] <;> exact Or.inl hlh
    have hstep_pd : List.Pairwise Disj (elems (reserveStep lo hi t (p1, p2))) := by
      refine List.Pairwise.perm ?_ estep.symm (fun h => h.symm)
      exact List.pairwise_append.mpr ⟨hpcsP, hY, hpcsY⟩
    have hstep_ne : ∀ q ∈ elems (reserveStep lo hi t (p1, p2)), q.1 < q.2 := by
      intro q hq
      rcases List.mem_append.mp (estep.mem_iff.mp hq) with hq | hq
      · rw [hpcs] at hq
        rcases List.mem_append.mp hq with hq | hq
        · by_cases hc1 : p1 < lo
          · have : q = (p1, lo) := by simpa [hc1] using hq
            subst this; exact hc1
          · simp [hc1] at hq
        · by_cases hc2 : hi < p2
          · have : q = (hi, p2) := by simpa [hc2] using hq
            subst this; exact hc2
          · simp [hc2] at hq
      · exact hne q (hperm.mem_iff.mpr (List.mem_cons_of_mem _ hq))
    have hrec := ih (reserveStep lo hi t (p1, p2)) (rest ++ pcs)
      ⟨hstep_bst, hstep_max, hstep_pd, hstep_ne⟩
      (estep.trans ((List.perm_append_comm).trans (by rw [List.append_assoc])))
      (fun q hq => hov q (List.mem_cons_of_mem _ hq))
    refine ⟨by simpa [List.foldl_cons] using hrec.1, ?_⟩
    have := hrec.2
    simp only [List.foldl_cons] at this ⊢
    refine this.trans ?_
    rw [List.append_assoc, pieces]
    simp [hpcs, List.append_assoc]

theorem inv_modify {t : ITree α} (hinv : Inv t) {lo hi : α} (hlh : lo ≤ hi) :
    Inv (modify_intervals t lo hi) ∧
      List.Perm (elems (modify_intervals t lo hi))
        ((elems t).filter (fun p => !overlapB p (lo, hi)) ++
          pieces lo hi ((elems t).filter (fun p => overlapB p (lo, hi)))) := by
  have hm := hinv.2.1
  rw [modify_intervals, searchOverlap_eq_filter t hm]
  refine inv_foldRes hlh _ t _ hinv ?_ ?_
  · exact (List.filter_append_perm _ (elems t)).symm
  · intro p hp; exact (List.mem_filter.mp hp).2

theorem inv_insert {t : ITree α} (hinv : Inv t) {lo hi : α} (hwf : lo < hi)
    (hdisj : ∀ p ∈ elems t, Disj (lo, hi) p) : Inv (insert_interval t lo hi) := by
  obtain ⟨hb, hm, hd, hne⟩ := hinv
  refine ⟨bst_insert hb lo hi, maxOk_insert hm lo hi, ?_, ?_⟩
  · exact (List.pairwise_cons.mpr ⟨hdisj, hd⟩).perm (elems_insert t lo hi).symm
      (fun h => h.symm)
  · intro p hp
    rcases mem_insert_iff.mp hp with rfl | hp
    · exact hwf
    · exact hne p hp

theorem inv_leaf : Inv (leaf : ITree α) :=
  ⟨trivial, trivial, List.Pairwise.nil, by simp [elems]⟩

theorem inv_okOps :
    ∀ (ops : List (Op α)) (t : ITree α), Inv t → okOps t ops = true →
      Inv (ops.foldl applyOp t) := by
  intro ops
  induction ops with
  | nil => intro t h _; exact h
  | cons op ops ih =>
    intro t hinv hok
    rw [okOps, Bool.and_eq_true] at hok
    obtain ⟨h1, h2⟩ := hok
    cases op with
    | ins lo hi =>
      simp only [okOp, Bool.and_eq_true, decide_eq_true_eq, List.all_eq_true] at h1
      refine ih _ (inv_insert hinv h1.1 ?_) h2
      intro p hp
      exact disjB_iff.mp (h1.2 p hp)
    | res lo hi =>
      simp only [okOp, decide_eq_true_eq] at h1
      exact ih _ (inv_modify hinv h1).1 h2

theorem inv_run {ops : List (Op α)} (hok : okOps leaf ops = true) : Inv (run ops) :=
  inv_okOps ops leaf inv_leaf hok

theorem maxOk_reserveStep {t : ITree α} (hm : MaxOk t) (lo hi : α) (p : α × α) :
    MaxOk (reserveStep lo hi t p) := by
  by_cases hc1 : p.1 < lo <;> by_cases hc2 : hi < p.2 <;>
    simp only [reserveStep, hc1, hc2, ite_true, ite_false] <;>
    first
      | exact maxOk_insert (maxOk_insert (maxOk_delete t hm p.1 p.2) _ _) _ _
      | exact maxOk_insert (maxOk_delete t hm p.1 p.2) _ _
      | exact maxOk_delete t hm p.1 p.2

theorem maxOk_run : ∀ (ops : List (Op α)), MaxOk (run ops) := by
  have hfold : ∀ (ov : List (α × α)) (lo hi : α) (t : ITree α), MaxOk t →
      MaxOk (ov.foldl (reserveStep lo hi) t) := by
    intro ov lo hi
    induction ov with
    | nil => intro t h; exact h
    | cons p ov ih =>
      intro t h
      simpa [List.foldl_cons] using ih _ (maxOk_reserveStep h lo hi p)
  have hops : ∀ (ops : List (Op α)) (t : ITree α), MaxOk t →
      MaxOk (ops.foldl applyOp t) := by
    intro ops
    induction ops with
    | nil => intro t h; exact h
    | cons op ops ih =>
      intro t h
      cases op with
      | ins lo hi => exact ih _ (maxOk_insert h lo hi)
      | res lo hi => exact ih _ (hfold _ lo hi t h)
  intro ops
  exact hops ops leaf trivial

theorem pieces_mem_left {lo hi : α} :
    ∀ {ps : List (α × α)} {p : α × α}, p ∈ ps → p.1 < lo →
      (p.1, lo) ∈ pieces lo hi ps := by
  intro ps
  induction ps with
  | nil => intro p hp; simp at hp
  | cons q ps ih =>
    intro p hp hplo
    rcases List.mem_cons.mp hp with rfl | hp
    · simp [pieces, hplo]
    · simp only [pieces, List.mem_append]
      exact Or.inr (Or.inr (ih hp hplo))

theorem pieces_mem_right {lo hi : α} :
    ∀ {ps : List (α × α)} {p : α × α}, p ∈ ps → hi < p.2 →
      (hi, p.2) ∈ pieces lo hi ps := by
  intro ps
  induction ps with
  | nil => intro p hp; simp at hp
  | cons q ps ih =>
    intro p hp hphi
    rcases List.mem_cons.mp hp with rfl | hp
    · simp [pieces, hphi]
    · simp only [pieces, List.mem_append]
      exact Or.inr (Or.inr (ih hp hphi))

theorem pieces_shape {lo hi : α} :
    ∀ {ps : List (α × α)} {q : α × α}, q ∈ pieces lo hi ps →
      q.2 = lo ∨ q.1 = hi := by
  intro ps
  induction ps with
  | nil => intro q hq; simp [pieces] at hq
  | cons p ps ih =>
    intro q hq
    simp only [pieces, List.mem_append] at hq
    rcases hq with hq | hq | hq
    · left
      by_cases hc : p.1 < lo
      · have : q = (p.1, lo) := by simpa [hc] using hq
        simp [this]
      · simp [hc] at hq
    · right
      by_cases hc : hi < p.2
      · have : q = (hi, p.2) := by simpa [hc] using hq
        simp [this]
      · simp [hc] at hq
    · exact ih hq

/-- C2, amended with the requirement `low ≤ high` on the query (as stated,
with an inverted query `low > high`, the claim is refuted by
`c2_counterexample`): on every tree state reachable by a sequence of
`insert_interval` / `modify_intervals` calls, `is_available(low, high)`
returns true iff some stored interval `[a, b]` satisfies `a ≤ low` and
`high ≤ b`; in particular it returns false on the empty tree (the run of
`[]`), and false for a query spanning two adjacent stored intervals. -/
theorem c2_isAvail_iff_contains (ops : List (Op α)) (lo hi : α) (hlh : lo ≤ hi) :
    is_available (run ops) lo hi = true ↔
      ∃ p ∈ elems (run ops), p.1 ≤ lo ∧ hi ≤ p.2 := by
  constructor
  · exact isAvail_sound (run ops) lo hi
  · rintro ⟨p, hp, h1, h2⟩
    exact isAvail_complete (run ops) (maxOk_run ops) lo hi hlh p hp h1 h2

/-- Witness for C2: a query spanning the two adjacent stored intervals
`[0,5]` and `[5,10]` is reported unavailable, matching the right-hand side. -/
theorem c2_witness :
    (3 : Int) ≤ 8 ∧
      (is_available (run [Op.ins (0 : Int) 5, Op.ins 5 10]) 3 8 = true ↔
        ∃ p ∈ elems (run [Op.ins (0 : Int) 5, Op.ins 5 10]), p.1 ≤ 3 ∧ 8 ≤ p.2) :=
  ⟨by decide, c2_isAvail_iff_contains [Op.ins (0 : Int) 5, Op.ins 5 10] 3 8 (by decide)⟩

/-- Counterexample to C2 as stated (quantifying over every query): on the
reachable tree holding `[10,20]` and `[0,5]`, the inverted query
`is_available(7, 3)` returns false although the stored interval `[0,5]`
satisfies `0 ≤ 7` and `3 ≤ 5` — the `left.max` pruning skips it. -/
theorem c2_counterexample :
    is_available (run [Op.ins (10 : Int) 20, Op.ins 0 5]) 7 3 = false ∧
      ((0, 5) : Int × Int) ∈ elems (run [Op.ins (10 : Int) 20, Op.ins 0 5]) ∧
      (0 : Int) ≤ 7 ∧ (3 : Int) ≤ 5 := by decide

/-- C3, amended with the validity discipline `okOps` (each inserted
interval well-formed and disjoint from the current contents, each
reservation window ordered; as stated, for arbitrary sequences, the claim
is refuted by `c3_counterexample`): the stored intervals of the resulting
tree are pairwise non-overlapping (as the half-open intervals the spec
declares them to be). -/
theorem c3_pairwise_disjoint (ops : List (Op α)) (hok : okOps leaf ops = true) :
    List.Pairwise Disj (elems (run ops)) :=
  (inv_run hok).2.2.1

/-- Witness for C3: a valid four-operation run, including a reservation
splitting one interval and another spanning two intervals. -/
theorem c3_witness :
    okOps (leaf : ITree Int) [Op.ins 0 10, Op.res 3 5, Op.ins 20 30, Op.res 8 25] = true ∧
      List.Pairwise Disj
        (elems (run [Op.ins (0 : Int) 10, Op.res 3 5, Op.ins 20 30, Op.res 8 25])) :=
  ⟨by decide,
    c3_pairwise_disjoint [Op.ins (0 : Int) 10, Op.res 3 5, Op.ins 20 30, Op.res 8 25]
      (by decide)⟩

/-- Counterexample to C3 as stated: `insert_interval` performs no overlap
check, so the two-insert sequence `[0,10]`, `[5,15]` leaves two stored
intervals that overlap. -/
theorem c3_counterexample :
    ¬ List.Pairwise Disj (elems (run [Op.ins (0 : Int) 10, Op.ins 5 15])) := by
  decide

/-- C1, amended with the requirement `low < high` on the reservation
window (for `low = high` the claim is refuted by `c1_counterexample`):
for every reachable valid tree state, every stored interval `[a,b]` and
every window `a ≤ low < high ≤ b`, after `modify_intervals(low, high)`,
`is_available(a, low)` is true when `a < low`, `is_available(high, b)` is
true when `high < b`, and `is_available(low, high)` is false — no stored
interval contains the reserved window, since any previous container
overlapped the window and was itself split. -/
theorem c1_reserve_correct (ops : List (Op α)) (hok : okOps leaf ops = true)
    (a b lo hi : α) (hab : (a, b) ∈ elems (run ops))
    (h1 : a ≤ lo) (h2 : lo < hi) (h3 : hi ≤ b) :
    (a < lo → is_available (modify_intervals (run ops) lo hi) a lo = true) ∧
      (hi < b → is_available (modify_intervals (run ops) lo hi) hi b = true) ∧
      is_available (modify_intervals (run ops) lo hi) lo hi = false := by
  have hinv := inv_run hok
  obtain ⟨hinv', hperm⟩ := inv_modify hinv (le_of_lt h2)
  have hmax' : MaxOk (modify_intervals (run ops) lo hi) := hinv'.2.1
  have hovab : overlapB ((a, b) : α × α) (lo, hi) = true := by
    simp only [overlapB, Bool.and_eq_true, decide_eq_true_eq]
    exact ⟨h1.trans h2.le, h2.le.trans h3⟩
  have habov : ((a, b) : α × α) ∈
      (elems (run ops)).filter (fun p => overlapB p (lo, hi)) :=
    List.mem_filter.mpr ⟨hab, hovab⟩
  refine ⟨?_, ?_, ?_⟩
  · intro halo
    have hmem : ((a, lo) : α × α) ∈ elems (modify_intervals (run ops) lo hi) := by
      refine hperm.mem_iff.mpr (List.mem_append.mpr (Or.inr ?_))
      exact pieces_mem_left habov halo
    exact isAvail_complete _ hmax' a lo halo.le (a, lo) hmem le_rfl le_rfl
  · intro hhib
    have hmem : ((hi, b) : α × α) ∈ elems (modify_intervals (run ops) lo hi) := by
      refine hperm.mem_iff.mpr (List.mem_append.mpr (Or.inr ?_))
      exact pieces_mem_right habov hhib
    exact isAvail_complete _ hmax' hi b hhib.le (hi, b) hmem le_rfl le_rfl
  · by_contra hcon
    rw [Bool.not_eq_false] at hcon
    obtain ⟨q, hq, hq1, hq2⟩ := isAvail_sound _ lo hi hcon
    rcases List.mem_append.mp (hperm.mem_iff.mp hq) with hq' | hq'
    · have hqno := (List.mem_filter.mp hq').2
      simp only [overlapB, Bool.not_eq_true', Bool.and_eq_false_iff,
        decide_eq_false_iff_not, not_le] at hqno
      rcases hqno with hc | hc
      · exact absurd (hq1.trans h2.le) (not_le.mpr hc)
      · exact absurd (h2.le.trans hq2) (not_le.mpr hc)
    · rcases pieces_shape hq' with hc | hc
      · exact absurd (hq2.trans_lt (hc ▸ h2)) (lt_irrefl hi)
      · exact absurd ((hc ▸ hq1).trans_lt h2) (lt_irrefl hi)

/-- Witness for C1: reserving `[3,5]` out of the single stored interval
`[0,10]` leaves `[0,3]` and `[5,10]` available and `[3,5]` unavailable. -/
theorem c1_witness :
    (okOps (leaf : ITree Int) [Op.ins 0 10] = true ∧
        ((0, 10) : Int × Int) ∈ elems (run [Op.ins (0 : Int) 10]) ∧
        (0 : Int) ≤ 3 ∧ (3 : Int) < 5 ∧ (5 : Int) ≤ 10) ∧
      ((0 : Int) < 3 → is_available (modify_intervals (run [Op.ins (0 : Int) 10]) 3 5) 0 3 = true) ∧
      ((5 : Int) < 10 → is_available (modify_intervals (run [Op.ins (0 : Int) 10]) 3 5) 5 10 = true) ∧
      is_available (modify_intervals (run [Op.ins (0 : Int) 10]) 3 5) 3 5 = false :=
  ⟨⟨by decide, by decide, by decide, by decide, by decide⟩,
    c1_reserve_correct [Op.ins (0 : Int) 10] (by decide) 0 10 3 5 (by decide)
      (by decide) (by decide) (by decide)⟩

/-- Counterexample to C1 as stated (which allows `low = high`): with the
single stored interval `[0,10]` and the degenerate window `[10,10]`
(satisfying `a ≤ low ≤ high ≤ b`), `modify_intervals(10,10)` deletes
`[0,10]` and reinserts it unchanged, after which `is_available(10,10)`
is true even though the only stored interval is the original `[0,10]`
itself — no other interval anywhere in the tree contains the window. -/
theorem c1_counterexample :
    okOps (leaf : ITree Int) [Op.ins 0 10] = true ∧
      modify_intervals (run [Op.ins (0 : Int) 10]) 10 10 = run [Op.ins (0 : Int) 10] ∧
      is_available (modify_intervals (run [Op.ins (0 : Int) 10]) 10 10) 10 10 = true ∧
      elems (modify_intervals (run [Op.ins (0 : Int) 10]) 10 10) = [(0, 10)] := by
  decide

/-- C5, corrected: `insert_interval` performs no validation whatsoever (no
`InvalidInterval` condition exists anywhere in the code), so a degenerate
interval with `low ≥ high` is silently stored rather than rejected. -/
theorem c5_insert_no_validation (t : ITree α) (lo hi : α) (hdeg : hi ≤ lo) :
    (lo, hi) ∈ elems (insert_interval t lo hi) :=
  mem_insert_iff.mpr (Or.inl rfl)

/-- Witness for C5: inserting the degenerate interval `[5,3]` into the
empty tree stores it. -/
theorem c5_witness :
    (3 : Int) ≤ 5 ∧ ((5, 3) : Int × Int) ∈ elems (insert_interval (leaf : ITree Int) 5 3) :=
  ⟨by decide, c5_insert_no_validation leaf 5 3 (by decide)⟩

/-- Counterexample to C5 as stated: `insert_interval(5, 3)` on an empty
tree does not fail; the degenerate interval is stored. -/
theorem c5_counterexample :
    elems (insert_interval (leaf : ITree Int) 5 3) = [(5, 3)] := by decide

end ITree

section

variable {β : Type} [LinearOrderedAddCommGroup β]

/-- C9: for every graph and every start node `s`, `_dijkstra(graph, s, s)`
returns `0` whenever the loop runs at all (any positive fuel): the first
pop yields `(0, s)` and the `current_node == end` early return fires
before `graph[current_node]` is ever read, so the result is `0` even when
`s` has no adjacency entry (the `∀ g` includes graphs without `s`). -/
theorem c9_dijkstra_self (g : Graph β) (s : Int) (fuel : Nat) :
    dijkstra (fuel + 1) g s s = some (some 0) := by
  simp [dijkstra, dloop, popMin, minOf, removeFirst]

/-- C4, the code's behavior at the failing input: with the two-node
edgeless graph `{0: [], 1: []}`, a driver at location `0` and a ride
pickup at `1`, `_dijkstra` returns `None` (target unreachable after a
normal loop run), and `find_best_driver` then aborts
(`pickup_time - timedelta(minutes=None)` raises `TypeError`) instead of
excluding the driver — the model's outer `none`. -/
theorem c4_unreachable_crash :
    dijkstra 10 ([(0, []), (1, [])] : Graph Int) 0 1 = some none ∧
      find_best_driver 10 ([(0, []), (1, [])] : Graph Int)
        [mkDriver 7 5 0 [(-100, 100)]] 10 1 5 = none := by
  constructor
  · rfl
  · rfl

theorem insertSorted_perm (r : Ride β) :
    ∀ (l : List (Ride β)), List.Perm (insertSorted r l) (r :: l) := by
  intro l
  induction l with
  | nil => simp [insertSorted]
  | cons x xs ih =>
    by_cases h : x.pickup_time ≤ r.pickup_time
    · simp only [insertSorted, if_pos h]
      exact (ih.cons x).trans (List.Perm.swap _ _ _)
    · simp [insertSorted, if_neg h]

theorem insertSorted_sorted (r : Ride β) :
    ∀ (l : List (Ride β)),
      List.Pairwise (fun x y : Ride β => x.pickup_time ≤ y.pickup_time) l →
      List.Pairwise (fun x y : Ride β => x.pickup_time ≤ y.pickup_time)
        (insertSorted r l) := by
  intro l
  induction l with
  | nil => intro _; simp [insertSorted]
  | cons x xs ih =>
    intro hp
    obtain ⟨hx, hxs⟩ := List.pairwise_cons.mp hp
    by_cases h : x.pickup_time ≤ r.pickup_time
    · rw [insertSorted, if_pos h]
      refine List.pairwise_cons.mpr ⟨?_, ih hxs⟩
      intro y hy
      rcases List.mem_cons.mp ((insertSorted_perm r xs).mem_iff.mp hy) with rfl | hy
      · exact h
      · exact hx y hy
    · rw [insertSorted, if_neg h]
      refine List.pairwise_cons.mpr ⟨?_, hp⟩
      intro y hy
      rcases List.mem_cons.mp hy with rfl | hy
      · exact (not_le.mp h).le
      · exact (not_le.mp h).le.trans (hx y hy)

theorem sortRides_perm (rides : List (Ride β)) :
    List.Perm (sortRides rides) rides := by
  have h : ∀ (rs acc : List (Ride β)),
      List.Perm (rs.foldl (fun a r => insertSorted r a) acc) (rs ++ acc) := by
    intro rs
    induction rs with
    | nil => intro acc; simp
    | cons r rs ih =>
      intro acc
      simp only [List.foldl_cons, List.cons_append]
      refine (ih (insertSorted r acc)).trans ?_
      refine (List.Perm.append_left rs (insertSorted_perm r acc)).trans ?_
      exact List.perm_middle
  simpa using h rides []

theorem sortRides_sorted (rides : List (Ride β)) :
    List.Pairwise (fun x y : Ride β => x.pickup_time ≤ y.pickup_time)
      (sortRides rides) := by
  have h : ∀ (rs acc : List (Ride β)),
      List.Pairwise (fun x y : Ride β => x.pickup_time ≤ y.pickup_time) acc →
      List.Pairwise (fun x y : Ride β => x.pickup_time ≤ y.pickup_time)
        (rs.foldl (fun a r => insertSorted r a) acc) := by
    intro rs
    induction rs with
    | nil => intro acc hacc; exact hacc
    | cons r rs ih =>
      intro acc hacc
      exact ih (insertSorted r acc) (insertSorted_sorted r acc hacc)
  exact h rides [] List.Pairwise.nil

/-- C10: `assign_rides_to_drivers` sorts the caller's `rides` list in
place before the loop; the list the caller holds after the call is a
permutation of the original list arranged in non-decreasing
`pickup_time` order (the model returns the caller's post-call list as
the first component). -/
theorem c10_rides_sorted_in_place (fuel : Nat) (g : Graph β)
    (rides : List (Ride β)) (drivers : List (Driver β)) :
    (assign_rides_to_drivers fuel g rides drivers).1 = sortRides rides ∧
      List.Perm ((assign_rides_to_drivers fuel g rides drivers).1) rides ∧
      List.Pairwise (fun x y : Ride β => x.pickup_time ≤ y.pickup_time)
        ((assign_rides_to_drivers fuel g rides drivers).1) :=
  ⟨rfl, sortRides_perm rides, sortRides_sorted rides⟩

theorem fbdGo_spec (fuel : Nat) (g : Graph β) (pt : β) (ploc : Int) (dur : β)
    (dt : Driver β → β) (drivers : List (Driver β)) :
    ∀ (rest : List (Driver β)) (i0 : Nat) (best : Option (Nat × β × β)),
      drivers.drop i0 = rest →
      (∀ d ∈ rest, dijkstra fuel g d.location ploc = some (some (dt d))) →
      fbdInv pt dur dt drivers i0 best →
      ((fbdGo fuel g pt ploc dur rest i0 best = some none ∧
          ∀ j : Fin drivers.length, ¬ eligAt pt dur dt (drivers.get j)) ∨
        ∃ i : Fin drivers.length,
          fbdGo fuel g pt ploc dur rest i0 best = some (some i.val) ∧
            eligAt pt dur dt (drivers.get i) ∧
            ∀ j : Fin drivers.length, eligAt pt dur dt (drivers.get j) → j ≠ i →
              dt (drivers.get i) < dt (drivers.get j) ∨
                (dt (drivers.get i) = dt (drivers.get j) ∧
                  ((drivers.get i).hourly_rate < (drivers.get j).hourly_rate ∨
                    ((drivers.get i).hourly_rate = (drivers.get j).hourly_rate ∧
                      (i : Nat) < (j : Nat))))) := by
  intro rest
  induction rest with
  | nil =>
    intro i0 best hdrop _ hinv
    have hlen : drivers.length ≤ i0 := by
      by_contra hcon
      rw [List.drop_eq_getElem_cons (not_le.mp hcon)] at hdrop
      exact List.cons_ne_nil _ _ hdrop
    cases best with
    | none =>
      refine Or.inl ⟨rfl, ?_⟩
      intro j
      exact hinv j (lt_of_lt_of_le j.isLt hlen)
    | some b =>
      obtain ⟨bi, bd, br⟩ := b
      obtain ⟨hbi, _, helig, hbd, hbr, hmin⟩ := hinv
      refine Or.inr ⟨⟨bi, hbi⟩, rfl, helig, ?_⟩
      intro j hj hne
      have hne' : (j : Nat) ≠ bi := fun hc => hne (Fin.ext hc)
      have := hmin j (lt_of_lt_of_le j.isLt hlen) hj hne'
      rw [hbd, hbr] at this
      exact this
  | cons d rest ih =>
    intro i0 best hdrop hdij hinv
    have hlen : i0 < drivers.length := by
      by_contra hcon
      rw [List.drop_eq_nil_iff.mpr (not_lt.mp hcon)] at hdrop
      exact List.cons_ne_nil _ _ hdrop.symm
    have hsplit := List.drop_eq_getElem_cons hlen
    rw [hdrop] at hsplit
    have hd_eq : d = drivers.get ⟨i0, hlen⟩ := by
      have := (List.cons.injEq _ _ _ _).mp hsplit
      simpa [List.get_eq_getElem] using this.1
    have hdrop' : drivers.drop (i0 + 1) = rest :=
      ((List.cons.injEq _ _ _ _).mp hsplit).2.symm
    have hdij_d : dijkstra fuel g d.location ploc = some (some (dt d)) :=
      hdij d (by simp)
    have hdij' : ∀ d' ∈ rest, dijkstra fuel g d'.location ploc = some (some (dt d')) :=
      fun d' hd' => hdij d' (by simp [hd'])
    by_cases he : d.has_available_intervals (pt - dt d) (pt + dur) = false
    · have hnelig : ¬ eligAt pt dur dt (drivers.get ⟨i0, hlen⟩) := by
        rw [← hd_eq]
        intro hc
        rw [eligAt] at hc
        rw [Driver.has_available_intervals] at he
        simp [hc] at he
      have hred : fbdGo fuel g pt ploc dur (d :: rest) i0 best =
          fbdGo fuel g pt ploc dur rest (i0 + 1) best := by
        simp only [fbdGo, hdij_d, if_pos he]
      rw [hred]
      refine ih (i0 + 1) best hdrop' hdij' ?_
      cases best with
      | none =>
        intro j hj
        rcases Nat.lt_succ_iff_lt_or_eq.mp hj with hj | hj
        · exact hinv j hj
        · intro hc
          exact hnelig (by rwa [show j = (⟨i0, hlen⟩ : Fin drivers.length) from Fin.ext hj] at hc)
      | some b =>
        obtain ⟨bi, bd, br⟩ := b
        obtain ⟨hbi, hbi0, helig, hbd, hbr, hmin⟩ := hinv
        refine ⟨hbi, Nat.lt_succ_of_lt hbi0, helig, hbd, hbr, ?_⟩
        intro j hj hjelig hjne
        rcases Nat.lt_succ_iff_lt_or_eq.mp hj with hj | hj
        · exact hmin j hj hjelig hjne
        · exact absurd (by rwa [show j = (⟨i0, hlen⟩ : Fin drivers.length) from Fin.ext hj]
            at hjelig) hnelig
    · have helig_d : eligAt pt dur dt (drivers.get ⟨i0, hlen⟩) := by
        rw [← hd_eq, eligAt]
        rw [Driver.has_available_intervals] at he
        exact Bool.eq_true_of_not_eq_false he
      cases best with
      | none =>
        have hred : fbdGo fuel g pt ploc dur (d :: rest) i0 none =
            fbdGo fuel g pt ploc dur rest (i0 + 1) (some (i0, dt d, d.hourly_rate)) := by
          simp only [fbdGo, hdij_d, if_neg he]
        rw [hred]
        refine ih (i0 + 1) (some (i0, dt d, d.hourly_rate)) hdrop' hdij' ?_
        refine ⟨hlen, Nat.lt_succ_self i0, helig_d, by rw [hd_eq], by rw [hd_eq], ?_⟩
        intro j hj hjelig hjne
        rcases Nat.lt_succ_iff_lt_or_eq.mp hj with hj | hj
        · exact absurd hjelig (hinv j hj)
        · exact absurd hj hjne
      | some b =>
        obtain ⟨bi, bd, br⟩ := b
        obtain ⟨hbi, hbi0, helig, hbd, hbr, hmin⟩ := hinv
        by_cases hlt : dt d < bd
        · have hred : fbdGo fuel g pt ploc dur (d :: rest) i0 (some (bi, bd, br)) =
              fbdGo fuel g pt ploc dur rest (i0 + 1) (some (i0, dt d, d.hourly_rate)) := by
            simp only [fbdGo, hdij_d, if_neg he, if_pos hlt]
          rw [hred]
          refine ih (i0 + 1) (some (i0, dt d, d.hourly_rate)) hdrop' hdij' ?_
          refine ⟨hlen, Nat.lt_succ_self i0, helig_d, by rw [hd_eq], by rw [hd_eq], ?_⟩
          intro j hj hjelig hjne
          rcases Nat.lt_succ_iff_lt_or_eq.mp hj with hj | hj
          · by_cases hjbi : (j : Nat) = bi
            · left
              have : j = (⟨bi, hbi⟩ : Fin drivers.length) := Fin.ext hjbi
              rw [this, ← hbd]
              exact hlt
            · rcases hmin j hj hjelig hjbi with hc | ⟨hc, _⟩
              · exact Or.inl (hlt.trans hc)
              · exact Or.inl (hc ▸ hlt)
          · exact absurd hj hjne
        · by_cases heq : dt d = bd ∧ d.hourly_rate < br
          · have hred : fbdGo fuel g pt ploc dur (d :: rest) i0 (some (bi, bd, br)) =
                fbdGo fuel g pt ploc dur rest (i0 + 1) (some (i0, dt d, d.hourly_rate)) := by
              simp only [fbdGo, hdij_d, if_neg he, if_neg hlt, if_pos heq]
            rw [hred]
            refine ih (i0 + 1) (some (i0, dt d, d.hourly_rate)) hdrop' hdij' ?_
            refine ⟨hlen, Nat.lt_succ_self i0, helig_d, by rw [hd_eq], by rw [hd_eq], ?_⟩
            intro j hj hjelig hjne
            rcases Nat.lt_succ_iff_lt_or_eq.mp hj with hj | hj
            · by_cases hjbi : (j : Nat) = bi
              · right
                have hjb : j = (⟨bi, hbi⟩ : Fin drivers.length) := Fin.ext hjbi
                rw [hjb, ← hbd, ← hbr]
                exact ⟨heq.1, Or.inl heq.2⟩
              · rcases hmin j hj hjelig hjbi with hc | ⟨hc, hc'⟩
                · exact Or.inl (heq.1 ▸ hc)
                · refine Or.inr ⟨heq.1.trans hc, Or.inl ?_⟩
                  rcases hc' with hc' | ⟨hc', _⟩
                  · exact heq.2.trans hc'
                  · exact hc' ▸ heq.2
            · exact absurd hj hjne
          · have hred : fbdGo fuel g pt ploc dur (d :: rest) i0 (some (bi, bd, br)) =
                fbdGo fuel g pt ploc dur rest (i0 + 1) (some (bi, bd, br)) := by
              simp only [fbdGo, hdij_d, if_neg he, if_neg hlt, if_neg heq]
            rw [hred]
            refine ih (i0 + 1) (some (bi, bd, br)) hdrop' hdij' ?_
            refine ⟨hbi, Nat.lt_succ_of_lt hbi0, helig, hbd, hbr, ?_⟩
            intro j hj hjelig hjne
            rcases Nat.lt_succ_iff_lt_or_eq.mp hj with hj | hj
            · exact hmin j hj hjelig hjne
            · have hjd : drivers.get j = drivers.get ⟨i0, hlen⟩ := by
                rw [show j = (⟨i0, hlen⟩ : Fin drivers.length) from Fin.ext hj]
              rw [hjd, ← hd_eq]
              have hble : bd ≤ dt d := not_lt.mp hlt
              rcases lt_or_eq_of_le hble with hc | hc
              · exact Or.inl hc
              · refine Or.inr ⟨hc, ?_⟩
                have hnr : ¬ d.hourly_rate < br := fun hr => heq ⟨hc.symm, hr⟩
                rcases lt_or_eq_of_le (not_lt.mp hnr) with hr | hr
                · exact Or.inl hr
                · exact Or.inr ⟨hr, hj ▸ hbi0⟩

/-- C6: whenever the estimator succeeds for every driver (travel times
given by `dt`), `find_best_driver` either reports no driver (exactly
when no driver is eligible for its adjusted window) or returns an
eligible driver that is strictly lexicographically minimal among all
eligible drivers in `(travel time, hourly rate, list position)`: minimum
travel time, ties broken by strictly lower hourly rate, and on equal
travel time and rate the first-seen driver is kept. -/
theorem c6_best_driver (fuel : Nat) (g : Graph β) (drivers : List (Driver β))
    (pt : β) (ploc : Int) (dur : β) (dt : Driver β → β)
    (H : ∀ d ∈ drivers, dijkstra fuel g d.location ploc = some (some (dt d))) :
    (find_best_driver fuel g drivers pt ploc dur = some none ∧
        ∀ j : Fin drivers.length, ¬ eligAt pt dur dt (drivers.get j)) ∨
      ∃ i : Fin drivers.length,
        find_best_driver fuel g drivers pt ploc dur = some (some i.val) ∧
          eligAt pt dur dt (drivers.get i) ∧
          ∀ j : Fin drivers.length, eligAt pt dur dt (drivers.get j) → j ≠ i →
            dt (drivers.get i) < dt (drivers.get j) ∨
              (dt (drivers.get i) = dt (drivers.get j) ∧
                ((drivers.get i).hourly_rate < (drivers.get j).hourly_rate ∨
                  ((drivers.get i).hourly_rate = (drivers.get j).hourly_rate ∧
                    (i : Nat) < (j : Nat)))) := by
  refine fbdGo_spec fuel g pt ploc dur dt drivers drivers 0 none rfl H ?_
  intro j hj
  exact absurd hj (Nat.not_lt_zero _)

/-- Witness for C6: two drivers tied on travel time (both two minutes
away); the selection characterization applies, and it forces the
cheaper second driver. -/
theorem c6_witness :
    (∀ d ∈ [c6d1, c6d2], dijkstra 10 c6g d.location 1 = some (some ((2 : Int)))) ∧
      ((find_best_driver 10 c6g [c6d1, c6d2] 10 1 5 = some none ∧
          ∀ j : Fin ([c6d1, c6d2].length),
            ¬ eligAt 10 5 (fun _ => (2 : Int)) ([c6d1, c6d2].get j)) ∨
        ∃ i : Fin ([c6d1, c6d2].length),
          find_best_driver 10 c6g [c6d1, c6d2] 10 1 5 = some (some i.val) ∧
            eligAt 10 5 (fun _ => (2 : Int)) ([c6d1, c6d2].get i) ∧
            ∀ j : Fin ([c6d1, c6d2].length),
              eligAt 10 5 (fun _ => (2 : Int)) ([c6d1, c6d2].get j) → j ≠ i →
              (2 : Int) < 2 ∨
                ((2 : Int) = 2 ∧
                  (([c6d1, c6d2].get i).hourly_rate < ([c6d1, c6d2].get j).hourly_rate ∨
                    (([c6d1, c6d2].get i).hourly_rate = ([c6d1, c6d2].get j).hourly_rate ∧
                      (i : Nat) < (j : Nat))))) :=
  ⟨by decide, c6_best_driver 10 c6g [c6d1, c6d2] 10 1 5 (fun _ => 2) (by decide)⟩

theorem appendAssign_mem {key : Int} {r : Ride β} :
    ∀ {asg : List (Int × List (Ride β))} {p : Int × List (Ride β)},
      p ∈ appendAssign asg key r → ∃ q ∈ asg, p.2 = q.2 ∨ p.2 = q.2 ++ [r] := by
  intro asg
  induction asg with
  | nil => intro p hp; simp [appendAssign] at hp
  | cons q asg ih =>
    intro p hp
    obtain ⟨k, l⟩ := q
    rw [appendAssign] at hp
    by_cases hc : k = key
    · rw [if_pos hc] at hp
      rcases List.mem_cons.mp hp with rfl | hp
      · exact ⟨(k, l), by simp, Or.inr rfl⟩
      · exact ⟨p, by simp [hp], Or.inl rfl⟩
    · rw [if_neg hc] at hp
      rcases List.mem_cons.mp hp with rfl | hp
      · exact ⟨(k, l), by simp, Or.inl rfl⟩
      · obtain ⟨q', hq', hor⟩ := ih hp
        exact ⟨q', by simp [hq'], hor⟩

theorem initAssign_empty :
    ∀ (drivers : List (Driver β)) (p : Int × List (Ride β)),
      p ∈ initAssign drivers → p.2 = [] := by
  have h : ∀ (ds : List (Driver β)) (acc : List (Int × List (Ride β))),
      (∀ p ∈ acc, p.2 = []) →
      ∀ p ∈ ds.foldl
        (fun a d =>
          match lookupA a d.driver_id with
          | some _ => a
          | none => a ++ [(d.driver_id, [])]) acc, p.2 = [] := by
    intro ds
    induction ds with
    | nil => intro acc hacc; exact hacc
    | cons d ds ih =>
      intro acc hacc
      simp only [List.foldl_cons]
      cases hk : lookupA acc d.driver_id with
      | some v => exact ih acc hacc
      | none =>
        refine ih (acc ++ [(d.driver_id, [])]) ?_
        intro p hp
        rcases List.mem_append.mp hp with hp | hp
        · exact hacc p hp
        · simp at hp
          simp [hp]
  intro drivers
  exact h drivers [] (by simp)

theorem assignFold_none (fuel : Nat) (g : Graph β) :
    ∀ (rs : List (Ride β)), rs.foldl (assignStep fuel g) none = none := by
  intro rs
  induction rs with
  | nil => rfl
  | cons r rs ih => simpa [assignStep] using ih

theorem assignFold_sorted (fuel : Nat) (g : Graph β) :
    ∀ (rs : List (Ride β)),
      List.Pairwise (fun x y : Ride β => x.pickup_time ≤ y.pickup_time) rs →
      ∀ (ds : List (Driver β)) (asg : List (Int × List (Ride β))),
        (∀ p ∈ asg,
          List.Pairwise (fun x y : Ride β => x.pickup_time ≤ y.pickup_time) p.2 ∧
            ∀ x ∈ p.2, ∀ r' ∈ rs, x.pickup_time ≤ r'.pickup_time) →
        ∀ (ds' : List (Driver β)) (asg' : List (Int × List (Ride β))),
          rs.foldl (assignStep fuel g) (some (ds, asg)) = some (ds', asg') →
          ∀ p ∈ asg',
            List.Pairwise (fun x y : Ride β => x.pickup_time ≤ y.pickup_time) p.2 := by
  intro rs
  induction rs with
  | nil =>
    intro _ ds asg hinv ds' asg' heq
    have : asg = asg' := by simpa using congrArg (fun o => o.map Prod.snd) heq
    subst this
    exact fun p hp => (hinv p hp).1
  | cons r rs ih =>
    intro hs ds asg hinv ds' asg' heq
    obtain ⟨hr, hs'⟩ := List.pairwise_cons.mp hs
    rw [List.foldl_cons] at heq
    rcases hf : find_best_driver fuel g ds r.pickup_time r.pickup_location
        r.estimated_ride_duration with _ | oi
    · rw [show assignStep fuel g (some (ds, asg)) r = none by simp [assignStep, hf]] at heq
      rw [assignFold_none] at heq
      exact absurd heq (by simp)
    · cases oi with
      | none =>
        rw [show assignStep fuel g (some (ds, asg)) r = some (ds, asg) by
          simp [assignStep, hf]] at heq
        refine ih hs' ds asg ?_ ds' asg' heq
        intro p hp
        exact ⟨(hinv p hp).1, fun x hx r' hr' =>
          (hinv p hp).2 x hx r' (List.mem_cons_of_mem _ hr')⟩
      | some i =>
        rcases hd : ds[i]? with _ | d
        · rw [show assignStep fuel g (some (ds, asg)) r = none by
            simp [assignStep, hf, hd]] at heq
          rw [assignFold_none] at heq
          exact absurd heq (by simp)
        · rw [show assignStep fuel g (some (ds, asg)) r =
              some (ds.set i (Driver.reserve_interval d r.pickup_time
                  (r.pickup_time + r.estimated_ride_duration)
                |> fun d' => { d' with location := r.dropoff_location }),
                appendAssign asg d.driver_id r) by
            simp [assignStep, hf, hd]] at heq
          refine ih hs' _ _ ?_ ds' asg' heq
          intro p hp
          obtain ⟨q, hq, hor⟩ := appendAssign_mem hp
          obtain ⟨hq1, hq2⟩ := hinv q hq
          rcases hor with hp2 | hp2
          · rw [hp2]
            exact ⟨hq1, fun x hx r' hr' => hq2 x hx r' (List.mem_cons_of_mem _ hr')⟩
          · rw [hp2]
            constructor
            · refine List.pairwise_append.mpr ⟨hq1, by simp, ?_⟩
              intro x hx y hy
              rw [List.mem_singleton.mp hy]
              exact hq2 x hx r (by simp)
            · intro x hx r' hr'
              rcases List.mem_append.mp hx with hx | hx
              · exact hq2 x hx r' (List.mem_cons_of_mem _ hr')
              · rw [List.mem_singleton.mp hx]
                exact hr r' hr'

theorem insertSorted_filter (c : β) (r : Ride β) :
    ∀ (l : List (Ride β)),
      List.Pairwise (fun x y : Ride β => x.pickup_time ≤ y.pickup_time) l →
      (insertSorted r l).filter (fun x => decide (x.pickup_time = c)) =
        if r.pickup_time = c
        then l.filter (fun x => decide (x.pickup_time = c)) ++ [r]
        else l.filter (fun x => decide (x.pickup_time = c)) := by
  intro l
  induction l with
  | nil =>
    intro _
    by_cases hc : r.pickup_time = c <;> simp [insertSorted, hc]
  | cons x xs ih =>
    intro hp
    obtain ⟨hx, hxs⟩ := List.pairwise_cons.mp hp
    by_cases hle : x.pickup_time ≤ r.pickup_time
    · rw [insertSorted, if_pos hle, List.filter_cons, List.filter_cons, ih hxs]
      by_cases hc : r.pickup_time = c <;> by_cases hxc : x.pickup_time = c <;>
        simp [hc, hxc]
    · rw [insertSorted, if_neg hle, List.filter_cons]
      by_cases hc : r.pickup_time = c
      · have hnil : (x :: xs).filter (fun y => decide (y.pickup_time = c)) = [] := by
          refine List.filter_eq_nil_iff.mpr ?_
          intro y hy
          have hxy : x.pickup_time ≤ y.pickup_time := by
            rcases List.mem_cons.mp hy with rfl | hy
            · exact le_rfl
            · exact hx y hy
          have : r.pickup_time < y.pickup_time := lt_of_lt_of_le (not_le.mp hle) hxy
          simp only [decide_eq_true_eq]
          intro hyc
          exact absurd (hc ▸ hyc : y.pickup_time = r.pickup_time)
            (ne_of_gt this)
        rw [if_pos hc, hnil]
        simp [hc, hnil]
      · rw [if_neg hc]
        simp [hc]

theorem sortRides_filter (c : β) (rides : List (Ride β)) :
    (sortRides rides).filter (fun x => decide (x.pickup_time = c)) =
      rides.filter (fun x => decide (x.pickup_time = c)) := by
  have h : ∀ (rs acc : List (Ride β)),
      List.Pairwise (fun x y : Ride β => x.pickup_time ≤ y.pickup_time) acc →
      (rs.foldl (fun a r => insertSorted r a) acc).filter
          (fun x => decide (x.pickup_time = c)) =
        acc.filter (fun x => decide (x.pickup_time = c)) ++
          rs.filter (fun x => decide (x.pickup_time = c)) := by
    intro rs
    induction rs with
    | nil => intro acc _; simp
    | cons r rs ih =>
      intro acc hacc
      rw [List.foldl_cons, ih (insertSorted r acc) (insertSorted_sorted r acc hacc),
        insertSorted_filter c r acc hacc, List.filter_cons]
      by_cases hc : r.pickup_time = c <;> simp [hc]
  simpa using h rides [] List.Pairwise.nil

/-- C7: `assign_rides_to_drivers` (i) leaves every driver's assignment
list internally ordered by pickup time whenever the run returns; (ii)
processes exactly the stable ascending-`pickup_time` rearrangement of
the input rides (the fold runs over `sortRides rides`, which is sorted
and preserves the input order of rides with equal pickup times); and
(iii) on each assignment reserves exactly the window
`[pickup_time, pickup_time + estimated_ride_duration]` in the selected
driver's tree (no travel-time buffer) and sets that driver's location to
the ride's drop-off location, leaving the other drivers unchanged. -/
theorem c7_assign_order_and_effect (fuel : Nat) (g : Graph β) :
    (∀ (rides : List (Ride β)) (drivers : List (Driver β))
        (ds' : List (Driver β)) (asg' : List (Int × List (Ride β))),
        (assign_rides_to_drivers fuel g rides drivers).2 = some (ds', asg') →
        ∀ p ∈ asg',
          List.Pairwise (fun x y : Ride β => x.pickup_time ≤ y.pickup_time) p.2) ∧
      (∀ (rides : List (Ride β)) (drivers : List (Driver β)),
        (assign_rides_to_drivers fuel g rides drivers).2 =
            (sortRides rides).foldl (assignStep fuel g)
              (some (drivers, initAssign drivers)) ∧
          List.Pairwise (fun x y : Ride β => x.pickup_time ≤ y.pickup_time)
            (sortRides rides) ∧
          ∀ c : β,
            (sortRides rides).filter (fun x => decide (x.pickup_time = c)) =
              rides.filter (fun x => decide (x.pickup_time = c))) ∧
      ∀ (ds : List (Driver β)) (asg : List (Int × List (Ride β))) (r : Ride β)
        (i : Nat) (d : Driver β),
        find_best_driver fuel g ds r.pickup_time r.pickup_location
            r.estimated_ride_duration = some (some i) →
        ds[i]? = some d →
        assignStep fuel g (some (ds, asg)) r =
          some (ds.set i
              { d with
                tree := ITree.modify_intervals d.tree r.pickup_time
                  (r.pickup_time + r.estimated_ride_duration),
                location := r.dropoff_location },
            appendAssign asg d.driver_id r) := by
  refine ⟨?_, ?_, ?_⟩
  · intro rides drivers ds' asg' heq
    refine assignFold_sorted fuel g (sortRides rides) (sortRides_sorted rides)
      drivers (initAssign drivers) ?_ ds' asg' heq
    intro p hp
    rw [initAssign_empty drivers p hp]
    simp
  · intro rides drivers
    exact ⟨rfl, sortRides_sorted rides, fun c => sortRides_filter c rides⟩
  · intro ds asg r i d hf hd
    simp only [assignStep, hf, hd]
    rfl

/-- Witness for C7: a concrete one-ride run and one concrete assignment
step, reserving exactly `[10, 15]` and moving the driver to node 2. -/
theorem c7_witness :
    (∀ p ∈ [((1 : Int), [c7ride])],
        List.Pairwise (fun x y : Ride Int => x.pickup_time ≤ y.pickup_time) p.2) ∧
      assignStep 20 c6g (some ([c6d1], [(1, [])])) c7ride =
        some ([c7driverAfter], [(1, [c7ride])]) :=
  ⟨(c7_assign_order_and_effect 20 c6g).1 [c7ride] [c6d1] [c7driverAfter]
      [(1, [c7ride])] (by decide),
    by
      have h := (c7_assign_order_and_effect 20 c6g).2.2 [c6d1] [(1, [])] c7ride 0 c6d1
        (by decide) (by decide)
      exact h.trans (by decide)⟩

theorem lookup_append {γ : Type} (g X : List (Int × γ)) (k : Int) :
    lookupA (g ++ X) k =
      match lookupA g k with
      | some v => some v
      | none => lookupA X k := by
  induction g with
  | nil => rfl
  | cons e g ih =>
    obtain ⟨k', v⟩ := e
    by_cases hc : k' = k
    · simp [lookupA, hc]
    · simp [lookupA, hc, ih]

theorem lookup_addEdge (g : Graph β) (k : Int) (e : Int × β) (q : Int) :
    lookupA (addEdge g k e) q =
      if k = q then (lookupA g q).map (fun l => l ++ [e]) else lookupA g q := by
  induction g with
  | nil =>
    by_cases hc : k = q <;> simp [addEdge, lookupA, hc]
  | cons ent g ih =>
    obtain ⟨k', l⟩ := ent
    by_cases h1 : k' = k
    · subst h1
      by_cases h2 : k' = q
      · subst h2
        simp [addEdge, lookupA]
      · have h2' : ¬k' = q := h2
        simp [addEdge, lookupA, h2']
    · by_cases h2 : k' = q
      · subst h2
        have hkq : ¬k = k' := fun hc => h1 hc.symm
        simp [addEdge, lookupA, h1, hkq, lookupA]
      · simp [addEdge, lookupA, h1, h2, ih]

theorem lookup_addEdge_isSome (g : Graph β) (k : Int) (e : Int × β) (q : Int) :
    (lookupA (addEdge g k e) q).isSome = (lookupA g q).isSome := by
  rw [lookup_addEdge]
  by_cases hc : k = q <;> simp [hc]

theorem lookup_addKey_some {g : Graph β} {q : Int} {v : List (Int × β)}
    (h : lookupA g q = some v) (k : Int) : lookupA (addKey g k) q = some v := by
  unfold addKey
  cases hk : lookupA g k with
  | some w => exact h
  | none => rw [lookup_append, h]

theorem lookup_addKey_self (g : Graph β) (k : Int) :
    (lookupA (addKey g k) k).isSome := by
  unfold addKey
  cases hk : lookupA g k with
  | some w => simp [hk]
  | none => rw [lookup_append, hk]; simp [lookupA]

theorem lookup_addKey_isSome {g : Graph β} {q : Int}
    (h : (lookupA g q).isSome) (k : Int) : (lookupA (addKey g k) q).isSome := by
  obtain ⟨v, hv⟩ := Option.isSome_iff_exists.mp h
  rw [lookup_addKey_some hv k]
  rfl

theorem lookup_addKey_none {g : Graph β} {q k : Int} (hne : k ≠ q)
    (h : lookupA g q = none) : lookupA (addKey g k) q = none := by
  unfold addKey
  cases hk : lookupA g k with
  | some w => exact h
  | none => rw [lookup_append, h]; simp [lookupA, hne]

theorem phase1Step_isSome {q : Int} {acc : Graph β × List Int}
    (h : (lookupA acc.1 q).isSome) (r : Ride β) :
    (lookupA (phase1Step acc r).1 q).isSome := by
  simp only [phase1Step, lookup_addEdge_isSome]
  exact lookup_addKey_isSome (lookup_addKey_isSome h _) _

theorem phase1_isSome_mono (q : Int) :
    ∀ (rides : List (Ride β)) (acc : Graph β × List Int),
      (lookupA acc.1 q).isSome →
      (lookupA (rides.foldl phase1Step acc).1 q).isSome := by
  intro rides
  induction rides with
  | nil => intro acc h; exact h
  | cons r rides ih =>
    intro acc h
    exact ih _ (phase1Step_isSome h r)

theorem phase1_keys :
    ∀ (rides : List (Ride β)) (acc : Graph β × List Int),
      ∀ r ∈ rides,
        (lookupA (rides.foldl phase1Step acc).1 r.pickup_location).isSome ∧
        (lookupA (rides.foldl phase1Step acc).1 r.dropoff_location).isSome := by
  intro rides
  induction rides with
  | nil => intro acc r hr; simp at hr
  | cons r0 rides ih =>
    intro acc r hr
    rcases List.mem_cons.mp hr with rfl | hr
    · constructor
      · refine phase1_isSome_mono _ rides _ ?_
        simp only [phase1Step, lookup_addEdge_isSome]
        exact lookup_addKey_isSome (lookup_addKey_self _ _) _
      · refine phase1_isSome_mono _ rides _ ?_
        simp only [phase1Step, lookup_addEdge_isSome]
        exact lookup_addKey_self _ _
    · exact ih _ r hr

theorem phase1_none (q : Int) :
    ∀ (rides : List (Ride β)) (acc : Graph β × List Int),
      lookupA acc.1 q = none →
      (∀ r ∈ rides, r.pickup_location ≠ q ∧ r.dropoff_location ≠ q) →
      lookupA (rides.foldl phase1Step acc).1 q = none := by
  intro rides
  induction rides with
  | nil => intro acc h _; exact h
  | cons r rides ih =>
    intro acc h hlocs
    obtain ⟨hp, hd⟩ := hlocs r (by simp)
    refine ih _ ?_ (fun r' hr' => hlocs r' (List.mem_cons_of_mem _ hr'))
    simp only [phase1Step, lookup_addEdge, if_neg hp, if_neg hd]
    exact lookup_addKey_none hd (lookup_addKey_none hp h)

theorem phase2Step_isSome {q : Int} {est : Int → Int → β} {dl : Int} {g : Graph β}
    (h : (lookupA g q).isSome) (r : Ride β) :
    (lookupA (phase2Step est dl g r) q).isSome := by
  unfold phase2Step
  split
  · exact h
  · split
    · simpa [lookup_addEdge_isSome] using h
    · exact h

theorem phase2Step_none {q : Int} {est : Int → Int → β} {dl : Int} {g : Graph β}
    (h : lookupA g q = none) (r : Ride β) :
    lookupA (phase2Step est dl g r) q = none := by
  unfold phase2Step
  split
  · exact h
  · split
    · rw [lookup_addEdge]
      by_cases hc : dl = q <;> simp [hc, h]
    · exact h

theorem phase2_isSome {q : Int} (est : Int → Int → β) (rides : List (Ride β)) :
    ∀ (dls : List Int) (g : Graph β),
      (lookupA g q).isSome → (lookupA (phase2 est rides g dls) q).isSome := by
  have hin : ∀ (dl : Int) (rs : List (Ride β)) (g : Graph β),
      (lookupA g q).isSome →
      (lookupA (rs.foldl (phase2Step est dl) g) q).isSome := by
    intro dl rs
    induction rs with
    | nil => intro g h; exact h
    | cons r rs ih =>
      intro g h
      exact ih _ (phase2Step_isSome h r)
  intro dls
  induction dls with
  | nil => intro g h; exact h
  | cons dl dls ih =>
    intro g h
    exact ih _ (hin dl rides g h)

theorem phase2_none {q : Int} (est : Int → Int → β) (rides : List (Ride β)) :
    ∀ (dls : List Int) (g : Graph β),
      lookupA g q = none → lookupA (phase2 est rides g dls) q = none := by
  have hin : ∀ (dl : Int) (rs : List (Ride β)) (g : Graph β),
      lookupA g q = none →
      lookupA (rs.foldl (phase2Step est dl) g) q = none := by
    intro dl rs
    induction rs with
    | nil => intro g h; exact h
    | cons r rs ih =>
      intro g h
      exact ih _ (phase2Step_none h r)
  intro dls
  induction dls with
  | nil => intro g h; exact h
  | cons dl dls ih =>
    intro g h
    exact ih _ (hin dl rides g h)

theorem phase3Ride_preserve {q : Int} {est : Int → Int → β} {d : Driver β}
    {g : Graph β} {v : Option (List (Int × β))} (hq : q ≠ d.location)
    (hv : lookupA g q = v) (r : Ride β) :
    lookupA (phase3Ride est d g r) q = v := by
  unfold phase3Ride
  split
  · split
    · exact hv
    · split
      · rw [lookup_addEdge, if_neg (fun hc => hq hc.symm)]
        exact hv
      · exact hv
  · exact hv

theorem phase3Ride_fold_preserve {q : Int} {est : Int → Int → β} {d : Driver β}
    (hq : q ≠ d.location) :
    ∀ (rs : List (Ride β)) (g : Graph β) (v : Option (List (Int × β))),
      lookupA g q = v → lookupA (rs.foldl (phase3Ride est d) g) q = v := by
  intro rs
  induction rs with
  | nil => intro g v hv; exact hv
  | cons r rs ih =>
    intro g v hv
    exact ih _ v (phase3Ride_preserve hq hv r)

theorem phase3Ride_isSome {q : Int} {est : Int → Int → β} {d : Driver β}
    {g : Graph β} (h : (lookupA g q).isSome) (r : Ride β) :
    (lookupA (phase3Ride est d g r) q).isSome := by
  unfold phase3Ride
  split
  · split
    · exact h
    · split
      · simpa [lookup_addEdge_isSome] using h
      · exact h
  · exact h

theorem phase3Ride_fold_isSome {q : Int} {est : Int → Int → β} {d : Driver β} :
    ∀ (rs : List (Ride β)) (g : Graph β),
      (lookupA g q).isSome → (lookupA (rs.foldl (phase3Ride est d) g) q).isSome := by
  intro rs
  induction rs with
  | nil => intro g h; exact h
  | cons r rs ih =>
    intro g h
    exact ih _ (phase3Ride_isSome h r)

theorem phase3Step_preserve {q : Int} {est : Int → Int → β} {rides : List (Ride β)}
    {g : Graph β} {adj : List (Int × β)} (h : lookupA g q = some adj) (d : Driver β) :
    lookupA (phase3Step est rides g d) q = some adj := by
  cases hl : lookupA g d.location with
  | some v =>
    simp only [phase3Step, hl]
    exact h
  | none =>
    simp only [phase3Step, hl]
    have hq : q ≠ d.location := by
      rintro rfl
      rw [h] at hl
      exact Option.noConfusion hl
    refine phase3Ride_fold_preserve hq rides _ _ ?_
    rw [lookup_append, h]

theorem phase3_preserve {q : Int} {est : Int → Int → β} {rides : List (Ride β)} :
    ∀ (ds : List (Driver β)) (g : Graph β) (adj : List (Int × β)),
      lookupA g q = some adj →
      lookupA (phase3 est rides ds g) q = some adj := by
  intro ds
  induction ds with
  | nil => intro g adj h; exact h
  | cons d ds ih =>
    intro g adj h
    exact ih _ adj (phase3Step_preserve h d)

theorem phase3_isSome {q : Int} {est : Int → Int → β} {rides : List (Ride β)}
    (ds : List (Driver β)) (g : Graph β) (h : (lookupA g q).isSome) :
    (lookupA (phase3 est rides ds g) q).isSome := by
  obtain ⟨v, hv⟩ := Option.isSome_iff_exists.mp h
  rw [phase3_preserve ds g v hv]
  rfl

theorem phase3_keys {est : Int → Int → β} {rides : List (Ride β)} :
    ∀ (ds : List (Driver β)) (g : Graph β),
      ∀ d ∈ ds, (lookupA (phase3 est rides ds g) d.location).isSome := by
  intro ds
  induction ds with
  | nil => intro g d hd; simp at hd
  | cons d0 ds ih =>
    intro g d hd
    rcases List.mem_cons.mp hd with rfl | hd
    · refine phase3_isSome ds (phase3Step est rides g d) ?_
      cases hl : lookupA g d.location with
      | some v =>
        simp only [phase3Step, hl]
        simp [hl]
      | none =>
        simp only [phase3Step, hl]
        refine phase3Ride_fold_isSome rides _ ?_
        rw [lookup_append, hl]
        simp [lookupA]
    · exact ih _ d hd

theorem phase3_none {q : Int} {est : Int → Int → β} {rides : List (Ride β)} :
    ∀ (ds : List (Driver β)) (g : Graph β),
      lookupA g q = none → (∀ d ∈ ds, d.location ≠ q) →
      lookupA (phase3 est rides ds g) q = none := by
  intro ds
  induction ds with
  | nil => intro g h _; exact h
  | cons d0 ds ih =>
    intro g h hne
    have hne0 : d0.location ≠ q := hne d0 (by simp)
    refine ih _ ?_ (fun d' hd' => hne d' (List.mem_cons_of_mem _ hd'))
    cases hl : lookupA g d0.location with
    | some v =>
      simp only [phase3Step, hl]
      exact h
    | none =>
      simp only [phase3Step, hl]
      refine phase3Ride_fold_preserve (fun hc => hne0 hc.symm) rides _ _ ?_
      rw [lookup_append, h]
      simp [lookupA, hne0]

theorem phase3Ride_fold_spec (est : Int → Int → β) (d : Driver β) :
    ∀ (rs : List (Ride β)) (g : Graph β) (adj : List (Int × β)),
      lookupA g d.location = some adj →
      (adj.map Prod.fst).Nodup →
      (∀ e ∈ adj, e.2 = est d.location e.1) →
      ∃ adjF, lookupA (rs.foldl (phase3Ride est d) g) d.location = some adjF ∧
        (adjF.map Prod.fst).Nodup ∧
        (∀ e ∈ adjF, e.2 = est d.location e.1) ∧
        ∀ pl : Int, (∃ w, (pl, w) ∈ adjF) ↔
          ((∃ w, (pl, w) ∈ adj) ∨
            ∃ r ∈ rs, r.pickup_location = pl ∧ windowOk d r = true) := by
  intro rs
  induction rs with
  | nil =>
    intro g adj h hnd hwt
    exact ⟨adj, h, hnd, hwt, fun pl => by simp⟩
  | cons r rs ih =>
    intro g adj h hnd hwt
    rw [List.foldl_cons]
    by_cases hw : windowOk d r = true
    · by_cases hall : adj.all (fun t => decide (r.pickup_location ≠ t.1)) = true
      · have hstep : phase3Ride est d g r =
            addEdge g d.location (r.pickup_location, est d.location r.pickup_location) := by
          simp only [phase3Ride, hw, if_pos, h, hall, ite_true]
        rw [hstep]
        have hadj' : lookupA
            (addEdge g d.location (r.pickup_location, est d.location r.pickup_location))
            d.location =
            some (adj ++ [(r.pickup_location, est d.location r.pickup_location)]) := by
          rw [lookup_addEdge, if_pos rfl, h]
          rfl
        have hnotmem : r.pickup_location ∉ adj.map Prod.fst := by
          intro hc
          obtain ⟨t, ht, hteq⟩ := List.mem_map.mp hc
          have := List.all_eq_true.mp hall t ht
          simp only [decide_eq_true_eq] at this
          exact this hteq.symm
        have hnd' : ((adj ++ [(r.pickup_location,
            est d.location r.pickup_location)]).map Prod.fst).Nodup := by
          rw [List.map_append]
          simp only [List.map_cons, List.map_nil]
          rw [List.nodup_append]
          refine ⟨hnd, by simp, ?_⟩
          intro x hx
          simp only [List.mem_singleton]
          rintro rfl
          exact hnotmem hx
        have hwt' : ∀ e ∈ adj ++ [(r.pickup_location, est d.location r.pickup_location)],
            e.2 = est d.location e.1 := by
          intro e he
          rcases List.mem_append.mp he with he | he
          · exact hwt e he
          · rw [List.mem_singleton.mp he]
        obtain ⟨adjF, hF, hFnd, hFwt, hFiff⟩ := ih _ _ hadj' hnd' hwt'
        refine ⟨adjF, hF, hFnd, hFwt, ?_⟩
        intro pl
        rw [hFiff pl]
        constructor
        · rintro (⟨w, hwm⟩ | hrs)
          · rcases List.mem_append.mp hwm with hwm | hwm
            · exact Or.inl ⟨w, hwm⟩
            · rw [List.mem_singleton] at hwm
              refine Or.inr ⟨r, by simp, ?_, hw⟩
              exact congrArg Prod.fst hwm.symm
          · obtain ⟨r', hr', hpl, hwr'⟩ := hrs
            exact Or.inr ⟨r', List.mem_cons_of_mem _ hr', hpl, hwr'⟩
        · rintro (⟨w, hwm⟩ | ⟨r', hr', hpl, hwr'⟩)
          · exact Or.inl ⟨w, List.mem_append.mpr (Or.inl hwm)⟩
          · rcases List.mem_cons.mp hr' with rfl | hr'
            · refine Or.inl ⟨est d.location r'.pickup_location, ?_⟩
              refine List.mem_append.mpr (Or.inr ?_)
              rw [List.mem_singleton, hpl]
            · exact Or.inr ⟨r', hr', hpl, hwr'⟩
      · have hstep : phase3Ride est d g r = g := by
          unfold phase3Ride
          rw [if_pos hw]
          split
          · rfl
          · next adj2 heq =>
            rw [h] at heq
            injection heq with h3
            subst h3
            rw [if_neg hall]
        rw [hstep]
        obtain ⟨adjF, hF, hFnd, hFwt, hFiff⟩ := ih _ _ h hnd hwt
        refine ⟨adjF, hF, hFnd, hFwt, ?_⟩
        have hmem : ∃ w, (r.pickup_location, w) ∈ adj := by
          have h1 : ¬ ∀ t ∈ adj, decide (r.pickup_location ≠ t.1) = true :=
            fun hc => hall (List.all_eq_true.mpr hc)
          push_neg at h1
          obtain ⟨t, ht, hdec⟩ := h1
          have hteq : r.pickup_location = t.1 := by
            by_contra hcon
            exact hdec (by simpa using hcon)
          exact ⟨t.2, by rw [hteq]; exact ht⟩
        intro pl
        rw [hFiff pl]
        constructor
        · rintro (hadj | hrs)
          · exact Or.inl hadj
          · obtain ⟨r', hr', hpl, hwr'⟩ := hrs
            exact Or.inr ⟨r', List.mem_cons_of_mem _ hr', hpl, hwr'⟩
        · rintro (hadj | ⟨r', hr', hpl, hwr'⟩)
          · exact Or.inl hadj
          · rcases List.mem_cons.mp hr' with rfl | hr'
            · exact Or.inl (hpl ▸ hmem)
            · exact Or.inr ⟨r', hr', hpl, hwr'⟩
    · have hstep : phase3Ride est d g r = g := by
        unfold phase3Ride
        rw [if_neg hw]
      rw [hstep]
      obtain ⟨adjF, hF, hFnd, hFwt, hFiff⟩ := ih _ _ h hnd hwt
      refine ⟨adjF, hF, hFnd, hFwt, ?_⟩
      intro pl
      rw [hFiff pl]
      constructor
      · rintro (hadj | hrs)
        · exact Or.inl hadj
        · obtain ⟨r', hr', hpl, hwr'⟩ := hrs
          exact Or.inr ⟨r', List.mem_cons_of_mem _ hr', hpl, hwr'⟩
      · rintro (hadj | ⟨r', hr', hpl, hwr'⟩)
        · exact Or.inl hadj
        · rcases List.mem_cons.mp hr' with rfl | hr'
          · exact absurd hwr' hw
          · exact Or.inr ⟨r', hr', hpl, hwr'⟩

/-- C8, amended: the guarantee half of the claim holds as stated — the
graph has an entry (possibly empty) for every ride pickup, ride drop-off
and driver start. The driver-edge half holds only for a driver whose
starting location is not already a node (not equal to any ride pickup or
drop-off and not equal to an earlier driver's start; see
`c8_counterexample` for the refutation of the unconditional claim): such
a driver's adjacency list contains exactly one edge, weighted by the
estimator, to each ride pickup location whose pickup time falls within
at least one of the driver's declared availability windows. -/
theorem c8_build_graph_keys_and_driver_edges (est : Int → Int → β)
    (rides : List (Ride β)) (drivers : List (Driver β)) :
    (∀ r ∈ rides,
        (lookupA (build_graph est rides drivers) r.pickup_location).isSome ∧
        (lookupA (build_graph est rides drivers) r.dropoff_location).isSome) ∧
      (∀ d ∈ drivers, (lookupA (build_graph est rides drivers) d.location).isSome) ∧
      ∀ (pre post : List (Driver β)) (d : Driver β),
        drivers = pre ++ d :: post →
        (∀ r ∈ rides, d.location ≠ r.pickup_location ∧ d.location ≠ r.dropoff_location) →
        (∀ d' ∈ pre, d'.location ≠ d.location) →
        ∃ adj, lookupA (build_graph est rides drivers) d.location = some adj ∧
          (adj.map Prod.fst).Nodup ∧
          (∀ e ∈ adj, e.2 = est d.location e.1) ∧
          ∀ pl : Int, (∃ w, (pl, w) ∈ adj) ↔
            ∃ r ∈ rides, r.pickup_location = pl ∧ windowOk d r = true := by
  refine ⟨?_, ?_, ?_⟩
  · intro r hr
    have h1 := phase1_keys rides ([], []) r hr
    unfold build_graph
    exact ⟨phase3_isSome drivers _ (phase2_isSome est rides _ _ h1.1),
      phase3_isSome drivers _ (phase2_isSome est rides _ _ h1.2)⟩
  · intro d hd
    exact phase3_keys drivers _ d hd
  · intro pre post d hsplit hfresh hpre
    have hg2 : lookupA (phase2 est rides (phase1 rides).1 (phase1 rides).2)
        d.location = none := by
      refine phase2_none est rides _ _ ?_
      refine phase1_none d.location rides ([], []) rfl ?_
      intro r hr
      exact ⟨fun hc => (hfresh r hr).1 hc.symm, fun hc => (hfresh r hr).2 hc.symm⟩
    unfold build_graph
    rw [hsplit, phase3, List.foldl_append, List.foldl_cons]
    have hg1 : lookupA (pre.foldl (phase3Step est rides)
        (phase2 est rides (phase1 rides).1 (phase1 rides).2)) d.location = none :=
      phase3_none pre _ hg2 hpre
    have hstepd : phase3Step est rides
        (pre.foldl (phase3Step est rides)
          (phase2 est rides (phase1 rides).1 (phase1 rides).2)) d =
        rides.foldl (phase3Ride est d)
          (pre.foldl (phase3Step est rides)
            (phase2 est rides (phase1 rides).1 (phase1 rides).2) ++
            [(d.location, [])]) := by
      simp only [phase3Step, hg1]
    rw [hstepd]
    have hstart : lookupA
        (pre.foldl (phase3Step est rides)
          (phase2 est rides (phase1 rides).1 (phase1 rides).2) ++
          [(d.location, [])]) d.location = some [] := by
      rw [lookup_append, hg1]
      simp [lookupA]
    obtain ⟨adjF, hF, hFnd, hFwt, hFiff⟩ :=
      phase3Ride_fold_spec est d rides _ [] hstart (by simp) (by simp)
    refine ⟨adjF, ?_, hFnd, hFwt, ?_⟩
    · exact phase3_preserve post _ adjF hF
    · intro pl
      rw [hFiff pl]
      simp

/-- Witness for C8: for the fresh driver at node 50, every ride location
has an entry, and the driver's adjacency holds exactly one edge per
window-eligible pickup (node 1 only, since ride 2's pickup time 20 is
outside the window `[0, 15]`). -/
theorem c8_witness :
    (∀ r ∈ [c8r1, c8r2],
        (lookupA (build_graph (fun _ _ => (1 : Int)) [c8r1, c8r2] [c8dFresh])
          r.pickup_location).isSome ∧
        (lookupA (build_graph (fun _ _ => (1 : Int)) [c8r1, c8r2] [c8dFresh])
          r.dropoff_location).isSome) ∧
      ∃ adj, lookupA (build_graph (fun _ _ => (1 : Int)) [c8r1, c8r2] [c8dFresh])
          c8dFresh.location = some adj ∧
        (adj.map Prod.fst).Nodup ∧
        (∀ e ∈ adj, e.2 = (1 : Int)) ∧
        ∀ pl : Int, (∃ w, (pl, w) ∈ adj) ↔
          ∃ r ∈ [c8r1, c8r2], r.pickup_location = pl ∧ windowOk c8dFresh r = true :=
  ⟨(c8_build_graph_keys_and_driver_edges (fun _ _ => (1 : Int)) [c8r1, c8r2]
      [c8dFresh]).1,
    (c8_build_graph_keys_and_driver_edges (fun _ _ => (1 : Int)) [c8r1, c8r2]
      [c8dFresh]).2.2 [] [] c8dFresh rfl (by decide) (by decide)⟩

/-- Counterexample to C8 as stated: the driver starts at node 1, which is
ride `c8r1`'s pickup, so `build_graph` skips the driver pass entirely
(`if driver.location not in graph`); ride `c8r2`'s pickup time 20 falls
inside the driver's window `[0, 100]`, yet node 1's adjacency targets are
exactly `[2]` — there is no edge from the driver's start to the eligible
pickup node 3. -/
theorem c8_counterexample :
    c8dAtPickup.location = 1 ∧
      c8r2.pickup_location = 3 ∧
      windowOk c8dAtPickup c8r2 = true ∧
      (lookupA (build_graph (fun _ _ => (1 : Int)) [c8r1, c8r2] [c8dAtPickup]) 1).map
          (fun l => l.map Prod.fst) = some [2] := by
  decide

end

end RidesDrivers
